import Mathlib

/-!
Verification of the HysAnalysis cyclic-test analysis core.

The numeric pipeline of `HysAnalysis.py` (preprocessing, hysteresis-loop
segmentation, skeleton-curve extraction, curve smoothing, ductility methods)
is embedded shallowly over `ℚ`.  Python/numpy floating-point values are
modelled as rationals; numpy's `argmax`/`argmin` (first index of the extreme)
and Python's insertion-ordered `dict` are modelled explicitly.
-/

set_option maxHeartbeats 1000000

namespace HysAnalysis

/-- An index-aligned (displacement, force) sample. -/
structure Sample where
  d : ℚ
  f : ℚ
deriving Repr, DecidableEq

/-- `np.max` over a rational list (numpy requires a nonempty array; the
empty case is given the junk value 0, it is never reached by the code). -/
def npMax : List ℚ → ℚ
  | [] => 0
  | x :: xs => xs.foldl max x

/-- `np.min` over a rational list (junk value 0 on the empty list). -/
def npMin : List ℚ → ℚ
  | [] => 0
  | x :: xs => xs.foldl min x

/-- `np.max(np.abs(l))`. -/
def maxAbs (l : List ℚ) : ℚ := npMax (l.map (fun x => |x|))

/-- `np.min(np.abs(l))`. -/
def minAbs (l : List ℚ) : ℚ := npMin (l.map (fun x => |x|))

/-- Scanning step of `np.argmax`: keep the first index attaining the
running maximum, replace only on a strictly larger value. -/
def argmaxGo (bi : ℕ) (bv : ℚ) (i : ℕ) : List ℚ → ℕ
  | [] => bi
  | y :: ys => if bv < y then argmaxGo i y (i+1) ys else argmaxGo bi bv (i+1) ys

/-- `np.argmax` over a rational list: first index of the maximum
(0 on the empty list, never reached by the code). -/
def argmaxIdx : List ℚ → ℕ
  | [] => 0
  | x :: xs => argmaxGo 0 x 1 xs

/-- Scanning step of `np.argmin`. -/
def argminGo (bi : ℕ) (bv : ℚ) (i : ℕ) : List ℚ → ℕ
  | [] => bi
  | y :: ys => if y < bv then argminGo i y (i+1) ys else argminGo bi bv (i+1) ys

/-- `np.argmin` over a rational list: first index of the minimum. -/
def argminIdx : List ℚ → ℕ
  | [] => 0
  | x :: xs => argminGo 0 x 1 xs

/-- `calculate_loop_area`'s signed accumulator: the signed trapezoidal
integral of `force` with respect to `displacement`
(`area += 0.5 * (force[i] + force[i+1]) * (displacement[i+1] - displacement[i])`). -/
def trapzSigned (d f : List ℚ) : ℚ :=
  (List.range (d.length - 1)).foldl
    (fun a i => a + 1/2 * (f.getD i 0 + f.getD (i+1) 0) * (d.getD (i+1) 0 - d.getD i 0)) 0

/-- `calculate_loop_area`: absolute value of the signed trapezoidal integral. -/
def calculate_loop_area (d f : List ℚ) : ℚ := |trapzSigned d f|

/-- A local displacement extremum found by `extract_hysteresis_loops` or
`extract_peak_points` (`{'index', 'type', 'disp', 'force'}`);
`pos = true` encodes `'positive'`. -/
structure Peak where
  idx : ℕ
  pos : Bool
  disp : ℚ
  force : ℚ
deriving Repr, DecidableEq

/-- Peak detection of `extract_hysteresis_loops`: an interior index `i` is a
positive peak if `displacement[i]` is a strict local maximum and positive,
a negative peak if a strict local minimum and negative. -/
def loopPeaks (d f : List ℚ) : List Peak :=
  (List.range' 1 (d.length - 2)).filterMap (fun i =>
    if d.getD i 0 > d.getD (i-1) 0 ∧ d.getD i 0 > d.getD (i+1) 0 then
      (if d.getD i 0 > 0 then some ⟨i, true, d.getD i 0, f.getD i 0⟩ else none)
    else if d.getD i 0 < d.getD (i-1) 0 ∧ d.getD i 0 < d.getD (i+1) 0 then
      (if d.getD i 0 < 0 then some ⟨i, false, d.getD i 0, f.getD i 0⟩ else none)
    else none)

/-- A segmented hysteresis loop
(`{'displacement', 'force', 'peak_disp', 'peak_force', 'area', 'type'}`). -/
structure HLoop where
  disp : List ℚ
  force : List ℚ
  peakDisp : ℚ
  peakForce : ℚ
  area : ℚ
  pos : Bool
deriving Repr, DecidableEq

instance : Inhabited HLoop := ⟨⟨[], [], 0, 0, 0, true⟩⟩

/-- Python slice `l[s : e+1]`. -/
def sliceQ (l : List ℚ) (s e : ℕ) : List ℚ := (l.drop s).take (e + 1 - s)

/-- `extract_hysteresis_loops` (without the optional first-loop filter):
consecutive peaks bound loops; loops with fewer than 3 samples are dropped. -/
def extract_hysteresis_loops (d f : List ℚ) : List HLoop :=
  let peaks := loopPeaks d f
  (peaks.zip peaks.tail).filterMap (fun pq =>
    let ld := sliceQ d pq.1.idx pq.2.idx
    let lf := sliceQ f pq.1.idx pq.2.idx
    if 2 < ld.length then
      some ⟨ld, lf, pq.1.disp, pq.1.force, calculate_loop_area ld lf, pq.1.pos⟩
    else none)

/-- `abs(l[np.argmax(np.abs(l))])`: magnitude of the sample at the
magnitude-argmax index, as computed by the ductility methods. -/
def maxAbsAt (l : List ℚ) : ℚ := |l.getD (argmaxIdx (l.map (fun x => |x|))) 0|

/-- `np.argmax(abs_force)` of `calc_geometric_ductility`. -/
def geoMaxIdx (f : List ℚ) : ℕ := argmaxIdx (f.map (fun x => |x|))

/-- Yield index of `calc_geometric_ductility`: nearest sample (up to and
including the force-magnitude-argmax) to `0.75 * max_force`. -/
def geoYieldIdx (f : List ℚ) : ℕ :=
  let absF := f.map (fun x => |x|)
  let maxIdx := argmaxIdx absF
  let maxForce := absF.getD maxIdx 0
  let yieldForce := 3/4 * maxForce
  argminIdx ((absF.take (maxIdx + 1)).map (fun x => |x - yieldForce|))

/-- Yield displacement of `calc_geometric_ductility`. -/
def geoYieldDisp (dp f : List ℚ) : ℚ := |dp.getD (geoYieldIdx f) 0|

/-- `calc_geometric_ductility`. -/
def calc_geometric_ductility (dp f : List ℚ) : ℚ :=
  let maxDisp := |dp.getD (geoMaxIdx f) 0|
  let yd := geoYieldDisp dp f
  if yd > 0 then maxDisp / yd else 1

/-- Yield displacement of `calc_energy_ductility`:
`2 * total_energy / max_force` (0 when `max_force = 0`, since `x / 0 = 0`
in `ℚ`; the code only uses it under `max_force > 0`). -/
def energyYieldDisp (dp f : List ℚ) : ℚ := 2 * calculate_loop_area dp f / maxAbsAt f

/-- `calc_energy_ductility`. -/
def calc_energy_ductility (dp f : List ℚ) : ℚ :=
  let maxDisp := maxAbsAt dp
  let maxForce := maxAbsAt f
  if maxForce > 0 then
    (let yd := energyYieldDisp dp f
     if yd > 0 then maxDisp / yd else 1)
  else 1

/-- Initial stiffness `K0` of `calc_park_ductility` (and, verbatim the same
loop, of `calc_elastic_yield_ductility`): maximal secant slope
`abs(force[i] / disp[i])` over `i ∈ range(1, min(5, len))`, skipping samples
with `|disp[i]| ≤ 1e-6`; starts at 0. -/
def parkK0 (dp f : List ℚ) : ℚ :=
  (List.range' 1 (min 5 dp.length - 1)).foldl
    (fun k0 i =>
      if |dp.getD i 0| > 1/1000000 then
        (let kt := |f.getD i 0 / dp.getD i 0|
         if kt > k0 then kt else k0)
      else k0) 0

/-- First index of a list satisfying a decidable predicate: models a Python
`for` loop that returns (or breaks) at its first hit. -/
def findFirst (P : ℕ → Prop) [DecidablePred P] : List ℕ → Option ℕ
  | [] => none
  | i :: rest => if P i then some i else findFirst P rest

/-- Yield search of `calc_park_ductility`: the first `i ∈ range(2, len)` with
`|disp[i]| > 1e-6` whose secant slope has dropped to `≤ K0/3`. -/
def parkYieldIdx (dp f : List ℚ) : Option ℕ :=
  let Ky := parkK0 dp f / 3
  findFirst (fun i => |dp.getD i 0| > 1/1000000 ∧ |f.getD i 0 / dp.getD i 0| ≤ Ky)
    (List.range' 2 (dp.length - 2))

/-- Yield displacement of `calc_park_ductility` (0 when no yield index is
found: the code then never forms a yield displacement and returns 1). -/
def parkYieldDisp (dp f : List ℚ) : ℚ :=
  match parkYieldIdx dp f with
  | some i => |dp.getD i 0|
  | none => 0

/-- `calc_park_ductility`. -/
def calc_park_ductility (dp f : List ℚ) : ℚ :=
  if dp.length < 3 then 1
  else if parkK0 dp f = 0 then 1
  else
    match parkYieldIdx dp f with
    | some i =>
      let yd := |dp.getD i 0|
      let maxDisp := |dp.getLastD 0|
      if yd > 0 then maxDisp / yd else 1
    | none => 1

/-- `np.argmax(np.abs(disp))` of `calc_farthest_ductility`. -/
def farthestMaxIdx (dp : List ℚ) : ℕ := argmaxIdx (dp.map (fun x => |x|))

/-- Yield index of `calc_farthest_ductility`.  The code maximises the
perpendicular distance
`abs(max_force*disp[i] - max_disp*force[i]) / sqrt(max_force**2 + max_disp**2)`
over `1 ≤ i < max_idx` with a strict-improvement running maximum started at
`(0, 0)`.  The square-root denominator is a constant independent of `i` and
strictly positive on every branch that reaches this loop
(`|max_disp| ≥ 1e-6`), so the selected index is identical to the one selected
by comparing numerators; `ℚ` has no square root, hence the numerator form is
embedded. -/
def farthestYieldIdx (dp f : List ℚ) : ℕ :=
  let maxIdx := farthestMaxIdx dp
  let maxDisp := dp.getD maxIdx 0
  let maxForce := f.getD maxIdx 0
  ((List.range' 1 (maxIdx - 1)).foldl
    (fun (st : ℚ × ℕ) i =>
      let dist := |maxForce * dp.getD i 0 - maxDisp * f.getD i 0|
      if dist > st.1 then (dist, i) else st) (0, 0)).2

/-- Yield displacement of `calc_farthest_ductility` (0 in the degenerate
`|max_disp| < 1e-6` branch, where the code returns 1 outright). -/
def farthestYieldDisp (dp f : List ℚ) : ℚ :=
  if |dp.getD (farthestMaxIdx dp) 0| < 1/1000000 then 0
  else |dp.getD (farthestYieldIdx dp f) 0|

/-- `calc_farthest_ductility`. -/
def calc_farthest_ductility (dp f : List ℚ) : ℚ :=
  let maxDisp := dp.getD (farthestMaxIdx dp) 0
  if |maxDisp| < 1/1000000 then 1
  else
    let yd := |dp.getD (farthestYieldIdx dp f) 0|
    if yd > 0 then |maxDisp| / yd else 1

/-- Yield index of `calc_asce_ductility`: nearest sample (over the whole
branch) to `0.6 * np.max(abs_force)`. -/
def asceYieldIdx (f : List ℚ) : ℕ :=
  let absF := f.map (fun x => |x|)
  let yieldForce := 3/5 * npMax absF
  argminIdx (absF.map (fun x => |x - yieldForce|))

/-- Yield displacement of `calc_asce_ductility`. -/
def asceYieldDisp (dp f : List ℚ) : ℚ := |dp.getD (asceYieldIdx f) 0|

/-- `calc_asce_ductility`. -/
def calc_asce_ductility (dp f : List ℚ) : ℚ :=
  let yd := asceYieldDisp dp f
  let maxDisp := maxAbsAt dp
  if yd > 0 then maxDisp / yd else 1

/-- Yield displacement of `calc_eeep_ductility`: `area / max_force`
(0 when `max_force = 0`, code guards with `max_force > 0`). -/
def eeepYieldDisp (dp f : List ℚ) : ℚ := calculate_loop_area dp f / maxAbsAt f

/-- `calc_eeep_ductility`. -/
def calc_eeep_ductility (dp f : List ℚ) : ℚ :=
  let maxForce := maxAbsAt f
  let maxDisp := maxAbsAt dp
  if maxForce > 0 then
    (let yd := eeepYieldDisp dp f
     if yd > 0 then maxDisp / yd else 1)
  else 1

/-- Yield displacement of `calc_elastic_yield_ductility`:
`max_force / K0 if K0 > 0 else 0`. -/
def elasticYieldDisp (dp f : List ℚ) : ℚ :=
  let K0 := parkK0 dp f
  if K0 > 0 then maxAbsAt f / K0 else 0

/-- `calc_elastic_yield_ductility`. -/
def calc_elastic_yield_ductility (dp f : List ℚ) : ℚ :=
  let K0 := parkK0 dp f
  if K0 = 0 then 1
  else
    let yd := elasticYieldDisp dp f
    let maxDisp := maxAbsAt dp
    if yd > 0 then maxDisp / yd else 1

/-- Savitzky–Golay effective window length (`interpolate_smooth`, branch
`algorithm == "SavitzkyGolay"`): the integer parameter is bumped to odd,
clipped to `num_points - 1`, and floored at 3. -/
def sgWindow (smoothness numPoints : ℕ) : ℕ :=
  let w1 := if smoothness % 2 = 0 then smoothness + 1 else smoothness
  let w2 := min w1 (numPoints - 1)
  if w2 < 3 then 3 else w2

/-- Savitzky–Golay polynomial order: `min(3, window_length - 1)`. -/
def sgPolyorder (smoothness numPoints : ℕ) : ℕ := min 3 (sgWindow smoothness numPoints - 1)

instance : Inhabited Sample := ⟨⟨0, 0⟩⟩

/-- Displacement threshold of `preprocess_data`:
`max(0.001, (np.max(np.abs(d)) - np.min(np.abs(d))) * 0.001)`. -/
def dispThresholdOf (s : List Sample) : ℚ :=
  max (1/1000) ((maxAbs (s.map Sample.d) - minAbs (s.map Sample.d)) * (1/1000))

/-- Force threshold of `preprocess_data`:
`max(0.01, (np.max(np.abs(f)) - np.min(np.abs(f))) * 0.001)`. -/
def forceThresholdOf (s : List Sample) : ℚ :=
  max (1/100) ((maxAbs (s.map Sample.f) - minAbs (s.map Sample.f)) * (1/1000))

/-- Zero snapping (`is_near_zero` and the assignment to 0.0). -/
def snapVal (thr v : ℚ) : ℚ := if |v| < thr then 0 else v

/-- The zero-snapped series (`displacement_cleaned` / `force_cleaned` after
the first loop of `preprocess_data`). -/
def snapSeries (s : List Sample) : List Sample :=
  s.map (fun p => ⟨snapVal (dispThresholdOf s) p.d, snapVal (forceThresholdOf s) p.f⟩)

/-- The scan `for stored_disp in list(disp_to_max_force_idx.keys())` of
`preprocess_data`: first stored entry (in insertion order) whose key — the
stored sample's displacement — is within `tolerance` of the new
displacement.  Entries pair the stored index with the stored sample. -/
def dictFindSimilar (tol pd : ℚ) : List (ℕ × Sample) → Option (ℕ × Sample)
  | [] => none
  | e :: rest => if |pd - e.2.d| ≤ tol then some e else dictFindSimilar tol pd rest

/-- Python `del dict[k]`: remove the (unique) entry with key `k`. -/
def dictDelete (k : ℚ) : List (ℕ × Sample) → List (ℕ × Sample)
  | [] => []
  | e :: rest => if e.2.d = k then rest else e :: dictDelete k rest

/-- Python `dict[current_disp] = i`: when an entry with exactly that key
already exists, update it in place (keeping its position, discarding its old
stored index); otherwise append a new entry at the end. -/
def dictAssign (i : ℕ) (p : Sample) : List (ℕ × Sample) → List (ℕ × Sample)
  | [] => [(i, p)]
  | e :: rest => if e.2.d = p.d then (i, p) :: rest else e :: dictAssign i p rest

/-- One dedup step of `preprocess_data` against the insertion-ordered
`disp_to_max_force_idx` dictionary: scan for the first key within
`tolerance`; on a match, if the new sample's `|force|` is strictly larger,
`del` the matched entry and assign `dict[current_disp] = i` (an assignment
that can silently overwrite another surviving entry whose key equals
`current_disp` exactly), else keep the dictionary unchanged; with no match,
assign `dict[current_disp] = i`. -/
def dictInsert (tol : ℚ) (i : ℕ) (p : Sample) (dict : List (ℕ × Sample)) :
    List (ℕ × Sample) :=
  match dictFindSimilar tol p.d dict with
  | some e => if |p.f| > |e.2.f| then dictAssign i p (dictDelete e.2.d dict) else dict
  | none => dictAssign i p dict

/-- The dedup loop of `preprocess_data`
(`for i in range(len(displacement_cleaned)): ...`). -/
def dedupFold (tol : ℚ) (i : ℕ) (dict : List (ℕ × Sample)) :
    List Sample → List (ℕ × Sample)
  | [] => dict
  | p :: rest => dedupFold tol (i + 1) (dictInsert tol i p dict) rest

/-- The finished dedup dictionary for a (snapped) series. -/
def dedupDict (tol : ℚ) (l : List Sample) : List (ℕ × Sample) := dedupFold tol 0 [] l

/-- `unique_indices = sorted(disp_to_max_force_idx.values())`. -/
def dedupIndices (tol : ℚ) (l : List Sample) : List ℕ :=
  List.insertionSort (· ≤ ·) ((dedupDict tol l).map Prod.fst)

/-- The deduplicated series (`displacement_cleaned[unique_indices]`). -/
def dedupSeries (s : List Sample) : List Sample :=
  (dedupIndices (dispThresholdOf s * (1/2)) (snapSeries s)).map
    (fun i => (snapSeries s).getD i default)

/-- The re-zero trigger of `preprocess_data`: sample `i` exceeds twice
either threshold. -/
def loadingCond (dt ft : ℚ) (l : List Sample) (i : ℕ) : Prop :=
  |(l.getD i default).d| > dt * 2 ∨ |(l.getD i default).f| > ft * 2

instance (dt ft : ℚ) (l : List Sample) : DecidablePred (loadingCond dt ft l) :=
  fun i => inferInstanceAs (Decidable (_ ∨ _))

/-- `loading_start_idx`: first index exceeding twice either threshold,
0 when none does. -/
def loadingStartIdx (dt ft : ℚ) (l : List Sample) : ℕ :=
  match findFirst (loadingCond dt ft l) (List.range l.length) with
  | some k => k
  | none => 0

/-- The re-zero step of `preprocess_data`: shift displacement by the value
at `loading_start_idx`, but only when that index is positive. -/
def rezeroSeries (dt ft : ℚ) (l : List Sample) : List Sample :=
  let k := loadingStartIdx dt ft l
  if k > 0 then l.map (fun p => ⟨p.d - (l.getD k default).d, p.f⟩) else l

/-- `preprocess_data`: zero-snapping, dedup by displacement, re-zero. -/
def preprocess_data (s : List Sample) : List Sample :=
  rezeroSeries (dispThresholdOf s) (forceThresholdOf s) (dedupSeries s)

/-- Filter a list of indices by a decidable predicate: models the Python
peak-collection loop of `filter_first_loops`. -/
def filterIdx (P : ℕ → Prop) [DecidablePred P] : List ℕ → List ℕ
  | [] => []
  | i :: rest => if P i then i :: filterIdx P rest else filterIdx P rest

/-- `peaks_indices` of `filter_first_loops`: interior strict local maxima of
`abs_disp = np.abs(displacement)`. -/
def absPeaksIdx (d : List ℚ) : List ℕ :=
  filterIdx (fun i => |d.getD i 0| > |d.getD (i-1) 0| ∧ |d.getD i 0| > |d.getD (i+1) 0|)
    (List.range' 1 (d.length - 2))

/-- Inner grouping scan of `filter_first_loops`: collect the later peaks
(positions not yet `used`) whose value is within `tolerance * peak_val` of
the seed value, marking their positions used.  Entries pair the enumeration
position with the series index. -/
def collectGroup (tol : ℚ) (v : ℕ → ℚ) (pv : ℚ) :
    List (ℕ × ℕ) → List ℕ → List ℕ × List ℕ
  | [], used => ([], used)
  | e :: rest, used =>
    if e.1 ∈ used then collectGroup tol v pv rest used
    else if |v e.2 - pv| ≤ tol * pv then
      let r := collectGroup tol v pv rest (e.1 :: used)
      (e.2 :: r.1, r.2)
    else collectGroup tol v pv rest used

/-- Outer grouping loop of `filter_first_loops`: each not-yet-used peak
seeds a group and absorbs the later peaks within tolerance of it. -/
def buildGroups (tol : ℚ) (v : ℕ → ℚ) : List (ℕ × ℕ) → List ℕ → List (List ℕ)
  | [], _ => []
  | e :: rest, used =>
    if e.1 ∈ used then buildGroups tol v rest used
    else
      let r := collectGroup tol v (v e.2) rest used
      (e.2 :: r.1) :: buildGroups tol v rest r.2

/-- Python `min(group)` over a nonempty list of indices. -/
def listMinNat : List ℕ → ℕ
  | [] => 0
  | x :: xs => xs.foldl Nat.min x

/-- Ordered duplicate-free insertion into a sorted index list. -/
def insSortedNat (i : ℕ) : List ℕ → List ℕ
  | [] => [i]
  | j :: rest =>
    if i < j then i :: j :: rest
    else if i = j then j :: rest
    else j :: insSortedNat i rest

/-- `keep_indices.update(range(a, b))`: the Python integer set with its
final `sorted()` is modelled as a sorted duplicate-free list maintained by
ordered insertion, so that `sorted(keep_indices)` is the list itself. -/
def addRange (a b : ℕ) (l : List ℕ) : List ℕ :=
  (List.range' a (b - a)).foldl (fun acc i => insSortedNat i acc) l

/-- The peak groups of `filter_first_loops` (`tolerance = 0.08`, values are
`abs_disp[peak]`, peaks enumerated by position). -/
def ffGroups (d : List ℚ) : List (List ℕ) :=
  buildGroups (8/100) (fun idx => (d.map (fun x => |x|)).getD idx 0)
    (absPeaksIdx d).enum []

/-- The kept index set of `filter_first_loops`, sorted ascending: for each
group the window `range(max(0, first_peak - 50), min(len, first_peak + 50))`
(`ℕ` subtraction models Python's `max(0, ...)` clamp). -/
def ffKeep (d : List ℚ) : List ℕ :=
  (ffGroups d).foldl
    (fun acc g => addRange (listMinNat g - 50) (min d.length (listMinNat g + 50)) acc) []

/-- `filter_first_loops`: no peaks or an empty kept set returns the series
unchanged; otherwise both channels restricted to the kept indices in
ascending order. -/
def filter_first_loops (d f : List ℚ) : List ℚ × List ℚ :=
  if absPeaksIdx d = [] then (d, f)
  else if ffKeep d = [] then (d, f)
  else ((ffKeep d).map (fun i => d.getD i 0), (ffKeep d).map (fun i => f.getD i 0))

/-- The 52-sample counterexample series for C8: a single `|displacement|`
peak at index 1, strictly decreasing afterwards. -/
def ffCexD : List ℚ := [0, 52, 51, 50, 49, 48, 47, 46, 45, 44, 43, 42, 41, 40, 39, 38, 37, 36, 35, 34, 33, 32, 31, 30, 29, 28, 27, 26, 25, 24, 23, 22, 21, 20, 19, 18, 17, 16, 15, 14, 13, 12, 11, 10, 9, 8, 7, 6, 5, 4, 3, 2]

/-- One skeleton branch: the parallel `{'disp': [...], 'force': [...]}` lists. -/
structure Branch where
  disp : List ℚ
  force : List ℚ
deriving Repr, DecidableEq

/-- A skeleton curve: `{'positive': ..., 'negative': ...}`. -/
structure Skeleton where
  positive : Branch
  negative : Branch
deriving Repr, DecidableEq

/-- The envelope accumulation loop shared by both skeleton extraction
methods: walk the candidates, keep a running extreme `st.1`, and append a
candidate to the branch when the acceptance condition `C` holds, updating
the running extreme to `u p`. -/
def envFold (C : ℚ → ℚ × ℚ → Prop) [∀ m p, Decidable (C m p)] (u : ℚ × ℚ → ℚ)
    (init : ℚ × List (ℚ × ℚ)) (l : List (ℚ × ℚ)) : ℚ × List (ℚ × ℚ) :=
  l.foldl (fun st p => if C st.1 p then (u p, st.2 ++ [p]) else st) init

/-- `extract_outer_envelope`: both branches start at `(0, 0)`; a sample joins
the positive branch when its displacement exceeds the threshold and the
running maximum by more than 10% of the threshold and its force magnitude
exceeds the force threshold; symmetrically for the negative branch. -/
def extract_outer_envelope (d f : List ℚ) : Skeleton :=
  let dispThreshold := max (1/100) (maxAbs d * (5/1000))
  let forceThreshold := max (1/100) (maxAbs f * (1/100))
  let pos := (envFold
    (fun m p => p.1 > dispThreshold ∧ p.1 > m + dispThreshold * (1/10) ∧ |p.2| > forceThreshold)
    (fun p => p.1) (0, [(0, 0)]) (d.zip f)).2
  let neg := (envFold
    (fun m p => p.1 < -dispThreshold ∧ p.1 < m - dispThreshold * (1/10) ∧ |p.2| > forceThreshold)
    (fun p => p.1) (0, [(0, 0)]) (d.zip f)).2
  ⟨⟨pos.map Prod.fst, pos.map Prod.snd⟩, ⟨neg.map Prod.fst, neg.map Prod.snd⟩⟩

/-- Peak detection of `extract_peak_points`: strict local extrema of the
displacement beyond the dead-band `thr`, tagged by direction. -/
def ppPeaks (d f : List ℚ) (thr : ℚ) : List Peak :=
  (List.range' 1 (d.length - 2)).filterMap (fun i =>
    if d.getD i 0 > d.getD (i-1) 0 ∧ d.getD i 0 > d.getD (i+1) 0 ∧ d.getD i 0 > thr then
      some ⟨i, true, d.getD i 0, f.getD i 0⟩
    else if d.getD i 0 < d.getD (i-1) 0 ∧ d.getD i 0 < d.getD (i+1) 0 ∧ d.getD i 0 < -thr then
      some ⟨i, false, d.getD i 0, f.getD i 0⟩
    else none)

/-- Index of the first negative peak (`first_neg_peak_idx`). -/
def firstNegPeakIdx (peaks : List Peak) : Option ℕ :=
  match peaks.find? (fun p => !p.pos) with
  | some p => some p.idx
  | none => none

/-- Scan for the second positive peak, counting positives seen so far. -/
def secondPosGo (cnt : ℕ) : List Peak → Option ℕ
  | [] => none
  | p :: rest =>
    if p.pos then
      (if cnt + 1 = 2 then some p.idx else secondPosGo (cnt + 1) rest)
    else secondPosGo cnt rest

/-- Index of the second positive peak (`second_pos_peak_idx`). -/
def secondPosPeakIdx (peaks : List Peak) : Option ℕ := secondPosGo 0 peaks

/-- `common_y_intercept` scan: over `j ∈ [s, e)`, find the first
zero-crossing of displacement (`d[j] ≤ 0 < d[j+1]`) and linearly interpolate
the force there. -/
def commonYIntercept (d f : List ℚ) (s e : ℕ) : Option ℚ :=
  (List.range' s (e - s)).findSome? (fun j =>
    if d.getD j 0 ≤ 0 ∧ d.getD (j+1) 0 > 0 then
      (if d.getD (j+1) 0 ≠ d.getD j 0 then
        some (f.getD j 0 + (-(d.getD j 0) / (d.getD (j+1) 0 - d.getD j 0)) *
          (f.getD (j+1) 0 - f.getD j 0))
      else none)
    else none)

/-- Stable insertion (by a rational key) used to model Python's stable
`sorted`. -/
def insertPeakBy (key : Peak → ℚ) (a : Peak) : List Peak → List Peak
  | [] => [a]
  | b :: rest => if key a ≤ key b then a :: b :: rest else b :: insertPeakBy key a rest

/-- Stable insertion sort by a rational key: models Python's `sorted(l, key=...)`. -/
def sortPeaksBy (key : Peak → ℚ) : List Peak → List Peak
  | [] => []
  | a :: rest => insertPeakBy key a (sortPeaksBy key rest)

/-- `extract_peak_points`: detect peaks beyond a 1%-of-max dead-band, find
the shared `(0, f0)` origin by interpolating the zero-crossing between the
first negative and second positive peak (falling back to `(0, 0)`), then
append per direction the sorted peaks whose magnitude exceeds the running
maximum magnitude by more than 10% of the dead-band. -/
def extract_peak_points (d f : List ℚ) : Skeleton :=
  let dispThreshold := max (1/100) (maxAbs d * (1/100))
  let allPeaks := ppPeaks d f dispThreshold
  let y0 :=
    match firstNegPeakIdx allPeaks, secondPosPeakIdx allPeaks with
    | some s, some e => commonYIntercept d f s e
    | _, _ => none
  let f0 : ℚ := match y0 with | some y => y | none => 0
  let posSorted := sortPeaksBy (fun p => p.disp) (allPeaks.filter (fun p => p.pos))
  let pos := (envFold (fun m p => p.1 > m + dispThreshold * (1/10)) (fun p => p.1)
    (0, [(0, f0)]) (posSorted.map (fun p => (p.disp, p.force)))).2
  let negSorted := sortPeaksBy (fun p => |p.disp|) (allPeaks.filter (fun p => !p.pos))
  let neg := (envFold (fun m p => |p.1| > |m| + dispThreshold * (1/10)) (fun p => p.1)
    (0, [(0, f0)]) (negSorted.map (fun p => (p.disp, p.force)))).2
  ⟨⟨pos.map Prod.fst, pos.map Prod.snd⟩, ⟨neg.map Prod.fst, neg.map Prod.snd⟩⟩

/-- Dedup-by-x scan of `interpolate_smooth`: keep the first occurrence of
each x value, in original order (`seen_x` dictionary). -/
def dedupByXGo (seen : List ℚ) : List (ℚ × ℚ) → List (ℚ × ℚ)
  | [] => []
  | p :: rest =>
    if p.1 ∈ seen then dedupByXGo seen rest
    else p :: dedupByXGo (p.1 :: seen) rest

/-- `interpolate_smooth`'s removal of duplicate x values (first-found wins). -/
def dedupByX (l : List (ℚ × ℚ)) : List (ℚ × ℚ) := dedupByXGo [] l

instance : DecidableRel (fun a b : ℚ × ℚ => a.1 ≤ b.1) :=
  fun a b => inferInstanceAs (Decidable (a.1 ≤ b.1))

instance : IsTotal (ℚ × ℚ) (fun a b => a.1 ≤ b.1) := ⟨fun a b => le_total a.1 b.1⟩

instance : IsTrans (ℚ × ℚ) (fun a b => a.1 ≤ b.1) := ⟨fun _ _ _ h1 h2 => le_trans h1 h2⟩

/-- `np.linspace(a, b, n)`: `n` evenly spaced points from `a` to `b`,
endpoints included. -/
def linspace (a b : ℚ) (n : ℕ) : List ℚ :=
  if n = 0 then []
  else if n = 1 then [a]
  else (List.range n).map (fun i : ℕ => a + (b - a) * (i : ℚ) / ((n : ℚ) - 1))

/-- `interpolate_smooth`: fewer than 4 points (before or after removing
duplicate x values) returns the input unchanged; otherwise the usable points
are sorted by x (`np.argsort`, modelled by the stable `List.insertionSort`)
and the output grid is `num_points` points linearly spaced over the sorted
x range.  The seven algorithm branches (PCHIP, Akima, Bézier, B-spline,
Savitzky–Golay, UnivariateSpline, CubicSpline) all construct a scipy
interpolant from `(x_sorted, y_sorted)` — library code external to this
repository — and evaluate it pointwise on `x_smooth`; that evaluation is
abstracted as `evalAlgo`. -/
def interpolate_smooth (evalAlgo : List ℚ → List ℚ → List ℚ → List ℚ)
    (numPoints : ℕ) (x y : List ℚ) : List ℚ × List ℚ :=
  if x.length < 4 then (x, y)
  else
    let uniq := dedupByX (x.zip y)
    if uniq.length < 4 then (x, y)
    else
      let sorted := List.insertionSort (fun a b => a.1 ≤ b.1) uniq
      let xs := sorted.map Prod.fst
      let ys := sorted.map Prod.snd
      let xSmooth := linspace (xs.headD 0) (xs.getLastD 0) numPoints
      (xSmooth, evalAlgo xs ys xSmooth)

end HysAnalysis

namespace HysAnalysis

/-- C3: every hysteresis loop produced by loop segmentation carries an area
equal to the absolute value of the signed trapezoidal integral of force with
respect to displacement over the loop span; in particular `loop.area ≥ 0`. -/
theorem loop_area_nonneg (d f : List ℚ) (L : HLoop)
    (hL : L ∈ extract_hysteresis_loops d f) :
    L.area = |trapzSigned L.disp L.force| ∧ 0 ≤ L.area := by
  unfold extract_hysteresis_loops at hL
  rw [List.mem_filterMap] at hL
  obtain ⟨pq, _, h⟩ := hL
  by_cases hlen : 2 < (sliceQ d pq.1.idx pq.2.idx).length
  · simp only [hlen, if_true, Option.some.injEq] at h
    subst h
    exact ⟨rfl, abs_nonneg _⟩
  · simp [hlen] at h

/-- Witness for C3 on the series `d = [0,1,0,-1,0]`, `f = [0,1,0,-1,0]`,
whose segmentation yields exactly one loop (between the positive peak at
index 1 and the negative peak at index 3). -/
theorem loop_area_nonneg_witness :
    (⟨[1, 0, -1], [1, 0, -1], 1, 1, 0, true⟩ : HLoop).area =
      |trapzSigned [1, 0, -1] [1, 0, -1]| ∧
    0 ≤ (⟨[1, 0, -1], [1, 0, -1], 1, 1, 0, true⟩ : HLoop).area :=
  loop_area_nonneg [0, 1, 0, -1, 0] [0, 1, 0, -1, 0] _ (by
    have hp : loopPeaks [0, 1, 0, -1, 0] [0, 1, 0, -1, 0] =
        [⟨1, true, 1, 1⟩, ⟨3, false, -1, -1⟩] := by
      norm_num [loopPeaks, List.range', List.filterMap]
    have hr : List.range 2 = [0, 1] := by decide
    unfold extract_hysteresis_loops
    rw [hp]
    norm_num [sliceQ, calculate_loop_area, trapzSigned, List.filterMap, hr])

/-- Helper for C10: the window computation on an even point count of at
least 4 yields an odd window in `[3, numPoints)`. -/
theorem sgWindow_of_even (s n : ℕ) (h2 : n % 2 = 0) (h4 : 4 ≤ n) :
    Odd (sgWindow s n) ∧ 3 ≤ sgWindow s n ∧ sgWindow s n < n := by
  rw [Nat.odd_iff]
  simp only [sgWindow]
  split_ifs <;> omega

/-- C10: for the point counts selectable in the application
(`interp_points ∈ {100, 200, 300, 500, 1000}`), the effective
Savitzky–Golay window is always odd, at least 3 and strictly below
`num_points`; the polynomial order is `min(3, window - 1)`; and an even
parameter such as 6 is corrected to the next odd window, 7. -/
theorem sg_window_props (s n : ℕ) (hn : n ∈ ([100, 200, 300, 500, 1000] : List ℕ)) :
    Odd (sgWindow s n) ∧ 3 ≤ sgWindow s n ∧ sgWindow s n < n ∧
    sgPolyorder s n = min 3 (sgWindow s n - 1) ∧ sgWindow 6 n = 7 := by
  have hn' : n % 2 = 0 ∧ 4 ≤ n ∧ 8 ≤ n := by
    fin_cases hn <;> omega
  obtain ⟨h2, h4, h8⟩ := hn'
  obtain ⟨ho, h3, hlt⟩ := sgWindow_of_even s n h2 h4
  refine ⟨ho, h3, hlt, rfl, ?_⟩
  unfold sgWindow
  have : min 7 (n - 1) = 7 := Nat.min_eq_left (by omega)
  norm_num [this]

/-- Witness for C10 at `smoothness = 6`, `num_points = 300`. -/
theorem sg_window_props_witness :
    Odd (sgWindow 6 300) ∧ 3 ≤ sgWindow 6 300 ∧ sgWindow 6 300 < 300 ∧
    sgPolyorder 6 300 = min 3 (sgWindow 6 300 - 1) ∧ sgWindow 6 300 = 7 :=
  sg_window_props 6 300 (by decide)

/-- C4: each of the seven ductility methods returns exactly 1 whenever its
computed yield displacement is ≤ 0, and likewise when a required denominator
(`K0` for Park / elastic-yield, the peak force for energy / EEEP) is zero. -/
theorem ductility_floor (dp f : List ℚ) :
    (geoYieldDisp dp f ≤ 0 → calc_geometric_ductility dp f = 1) ∧
    (energyYieldDisp dp f ≤ 0 → calc_energy_ductility dp f = 1) ∧
    (maxAbsAt f = 0 → calc_energy_ductility dp f = 1) ∧
    (parkYieldDisp dp f ≤ 0 → calc_park_ductility dp f = 1) ∧
    (parkK0 dp f = 0 → calc_park_ductility dp f = 1) ∧
    (farthestYieldDisp dp f ≤ 0 → calc_farthest_ductility dp f = 1) ∧
    (asceYieldDisp dp f ≤ 0 → calc_asce_ductility dp f = 1) ∧
    (eeepYieldDisp dp f ≤ 0 → calc_eeep_ductility dp f = 1) ∧
    (maxAbsAt f = 0 → calc_eeep_ductility dp f = 1) ∧
    (elasticYieldDisp dp f ≤ 0 → calc_elastic_yield_ductility dp f = 1) ∧
    (parkK0 dp f = 0 → calc_elastic_yield_ductility dp f = 1) := by
  refine ⟨?_, ?_, ?_, ?_, ?_, ?_, ?_, ?_, ?_, ?_, ?_⟩
  · intro h
    simp only [calc_geometric_ductility]
    rw [if_neg (not_lt.mpr h)]
  · intro h
    simp only [calc_energy_ductility]
    by_cases hf : 0 < maxAbsAt f
    · rw [if_pos hf, if_neg (not_lt.mpr h)]
    · rw [if_neg hf]
  · intro h
    simp only [calc_energy_ductility, h]
    rw [if_neg (lt_irrefl 0)]
  · intro h
    by_cases h3 : dp.length < 3
    · simp [calc_park_ductility, h3]
    · by_cases hk : parkK0 dp f = 0
      · simp [calc_park_ductility, h3, hk]
      · cases hidx : parkYieldIdx dp f with
        | none => simp [calc_park_ductility, h3, hk, hidx]
        | some i =>
          have hyd : |dp.getD i 0| ≤ 0 := by
            unfold parkYieldDisp at h
            rwa [hidx] at h
          simp only [calc_park_ductility, hidx]
          rw [if_neg h3, if_neg hk, if_neg (not_lt.mpr hyd)]
  · intro h
    simp [calc_park_ductility, h]
  · intro h
    simp only [calc_farthest_ductility]
    by_cases hd : |dp.getD (farthestMaxIdx dp) 0| < 1/1000000
    · rw [if_pos hd]
    · rw [if_neg hd]
      have hyd : |dp.getD (farthestYieldIdx dp f) 0| ≤ 0 := by
        unfold farthestYieldDisp at h
        rwa [if_neg hd] at h
      rw [if_neg (not_lt.mpr hyd)]
  · intro h
    simp only [calc_asce_ductility]
    rw [if_neg (not_lt.mpr h)]
  · intro h
    simp only [calc_eeep_ductility]
    by_cases hf : 0 < maxAbsAt f
    · rw [if_pos hf, if_neg (not_lt.mpr h)]
    · rw [if_neg hf]
  · intro h
    simp only [calc_eeep_ductility, h]
    rw [if_neg (lt_irrefl 0)]
  · intro h
    simp only [calc_elastic_yield_ductility]
    by_cases hk : parkK0 dp f = 0
    · rw [if_pos hk]
    · rw [if_neg hk, if_neg (not_lt.mpr h)]
  · intro h
    simp [calc_elastic_yield_ductility, h]

/-- Witness for C4 on the degenerate branch `dp = f = [0, 0, 0]`, where every
yield displacement and denominator evaluates to 0 and all seven methods
return 1. -/
theorem ductility_floor_witness :
    geoYieldDisp [0, 0, 0] [0, 0, 0] ≤ 0 ∧
    calc_geometric_ductility [0, 0, 0] [0, 0, 0] = 1 ∧
    calc_energy_ductility [0, 0, 0] [0, 0, 0] = 1 ∧
    calc_park_ductility [0, 0, 0] [0, 0, 0] = 1 ∧
    calc_farthest_ductility [0, 0, 0] [0, 0, 0] = 1 ∧
    calc_asce_ductility [0, 0, 0] [0, 0, 0] = 1 ∧
    calc_eeep_ductility [0, 0, 0] [0, 0, 0] = 1 ∧
    calc_elastic_yield_ductility [0, 0, 0] [0, 0, 0] = 1 := by
  have h := ductility_floor [0, 0, 0] [0, 0, 0]
  have h1 : geoYieldDisp [0, 0, 0] [0, 0, 0] ≤ 0 := by
    norm_num [geoYieldDisp, geoYieldIdx, argmaxIdx, argmaxGo, argminIdx, argminGo]
  have h2 : energyYieldDisp [0, 0, 0] [0, 0, 0] ≤ 0 := by
    norm_num [energyYieldDisp, calculate_loop_area, trapzSigned, maxAbsAt,
      argmaxIdx, argmaxGo]
  have h4 : parkYieldDisp [0, 0, 0] [0, 0, 0] ≤ 0 := by
    norm_num [parkYieldDisp, parkYieldIdx, findFirst, parkK0, List.range']
  have h6 : farthestYieldDisp [0, 0, 0] [0, 0, 0] ≤ 0 := by
    norm_num [farthestYieldDisp, farthestMaxIdx, argmaxIdx, argmaxGo]
  have h7 : asceYieldDisp [0, 0, 0] [0, 0, 0] ≤ 0 := by
    norm_num [asceYieldDisp, asceYieldIdx, npMax, argminIdx, argminGo]
  have h8 : eeepYieldDisp [0, 0, 0] [0, 0, 0] ≤ 0 := by
    norm_num [eeepYieldDisp, calculate_loop_area, trapzSigned, maxAbsAt,
      argmaxIdx, argmaxGo]
  have h10 : elasticYieldDisp [0, 0, 0] [0, 0, 0] ≤ 0 := by
    norm_num [elasticYieldDisp, parkK0, List.range']
  exact ⟨h1, h.1 h1, h.2.1 h2, (h.2.2.2.1 h4), h.2.2.2.2.2.1 h6,
    h.2.2.2.2.2.2.1 h7, h.2.2.2.2.2.2.2.1 h8, h.2.2.2.2.2.2.2.2.2.1 h10⟩

/-- The `np.argmax` scan returns an in-bounds index whose value is the
running maximum of the remaining suffix. -/
theorem argmaxGo_spec (L : List ℚ) :
    ∀ (l : List ℚ) (i bi : ℕ) (bv : ℚ),
      l = L.drop i → bi < L.length → L.getD bi 0 = bv →
      L.getD (argmaxGo bi bv i l) 0 = l.foldl max bv ∧ argmaxGo bi bv i l < L.length := by
  intro l
  induction l with
  | nil =>
    intro i bi bv _ hbi hbv
    exact ⟨hbv, hbi⟩
  | cons y ys ih =>
    intro i bi bv hdrop hbi hbv
    have hi : i < L.length := by
      by_contra hge
      push_neg at hge
      rw [List.drop_eq_nil_of_le hge] at hdrop
      exact List.cons_ne_nil y ys hdrop
    have hy : L.getD i 0 = y := by
      have h0 : L[i]? = some y := by
        have := List.getElem?_drop L i 0
        rw [← hdrop] at this
        simpa using this.symm
      simp [List.getD_eq_getElem?_getD, h0]
    have hys : ys = L.drop (i + 1) := by
      have ht : (L.drop i).tail = L.drop (i + 1) := List.tail_drop L i
      rw [← hdrop] at ht
      simpa using ht
    by_cases hlt : bv < y
    · simp only [argmaxGo, if_pos hlt]
      obtain ⟨ih1, ih2⟩ := ih (i + 1) i y hys hi hy
      refine ⟨?_, ih2⟩
      rw [ih1]
      simp [max_eq_right (le_of_lt hlt)]
    · simp only [argmaxGo, if_neg hlt]
      obtain ⟨ih1, ih2⟩ := ih (i + 1) bi bv hys hbi hbv
      refine ⟨?_, ih2⟩
      rw [ih1]
      simp [max_eq_left (not_lt.mp hlt)]

/-- `np.argmax` picks an in-bounds index attaining the maximum value. -/
theorem argmaxIdx_spec (l : List ℚ) (h : l ≠ []) :
    l.getD (argmaxIdx l) 0 = npMax l ∧ argmaxIdx l < l.length := by
  cases l with
  | nil => exact absurd rfl h
  | cons x xs =>
    have := argmaxGo_spec (x :: xs) xs 1 0 x (by simp) (by simp) (by simp)
    simpa [argmaxIdx, npMax] using this

/-- Reading the `|·|`-mapped list at an in-bounds index. -/
theorem getD_map_abs (l : List ℚ) (i : ℕ) (h : i < l.length) :
    (l.map (fun x => |x|)).getD i 0 = |l.getD i 0| := by
  rw [List.getD_eq_getElem?_getD, List.getD_eq_getElem?_getD, List.getElem?_map,
    List.getElem?_eq_getElem h]
  simp

/-- The magnitude of the sample at the magnitude-argmax index is the maximum
magnitude over the whole list (`abs(l[np.argmax(np.abs(l))]) = max |l|`). -/
theorem maxAbsAt_eq (l : List ℚ) : maxAbsAt l = maxAbs l := by
  cases hl : l with
  | nil => simp [maxAbsAt, maxAbs, npMax, argmaxIdx]
  | cons x xs =>
    rw [← hl]
    have hne : l.map (fun x => |x|) ≠ [] := by simp [hl]
    obtain ⟨h1, h2⟩ := argmaxIdx_spec (l.map (fun x => |x|)) hne
    have hlen : argmaxIdx (l.map (fun x => |x|)) < l.length := by
      simpa using h2
    unfold maxAbsAt maxAbs
    rw [← getD_map_abs l _ hlen, h1]

/-- The initial value bounds a `foldl max`. -/
theorem le_foldl_max (l : List ℚ) : ∀ a : ℚ, a ≤ l.foldl max a := by
  induction l with
  | nil => intro a; simp
  | cons y ys ih =>
    intro a
    calc a ≤ max a y := le_max_left a y
    _ ≤ ys.foldl max (max a y) := ih (max a y)

/-- Every member bounds into a `foldl max`. -/
theorem mem_le_foldl_max (l : List ℚ) : ∀ (a x : ℚ), x ∈ l → x ≤ l.foldl max a := by
  induction l with
  | nil => intro a x hx; cases hx
  | cons y ys ih =>
    intro a x hx
    rcases List.mem_cons.mp hx with h | h
    · subst h
      calc x ≤ max a x := le_max_right a x
      _ ≤ ys.foldl max (max a x) := le_foldl_max ys (max a x)
    · exact ih (max a y) x h

/-- A `foldl max` is the initial value or a member. -/
theorem foldl_max_mem (l : List ℚ) : ∀ a : ℚ, l.foldl max a = a ∨ l.foldl max a ∈ l := by
  induction l with
  | nil => intro a; exact Or.inl rfl
  | cons y ys ih =>
    intro a
    rcases ih (max a y) with h | h
    · rcases max_choice a y with hm | hm
      · exact Or.inl (by rw [List.foldl_cons, h, hm])
      · exact Or.inr (by rw [List.foldl_cons, h, hm]; exact List.mem_cons_self y ys)
    · exact Or.inr (List.mem_cons_of_mem y h)

/-- `np.max` of a nonempty list is a member and an upper bound. -/
theorem npMax_spec (l : List ℚ) (h : l ≠ []) :
    npMax l ∈ l ∧ ∀ x ∈ l, x ≤ npMax l := by
  cases l with
  | nil => exact absurd rfl h
  | cons y ys =>
    constructor
    · rcases foldl_max_mem ys y with h | h
      · rw [npMax, h]; exact List.mem_cons_self y ys
      · exact List.mem_cons_of_mem y h
    · intro x hx
      rcases List.mem_cons.mp hx with hxy | hxy
      · subst hxy; exact le_foldl_max ys x
      · exact mem_le_foldl_max ys y x hxy

/-- On a branch whose displacement magnitudes strictly increase, the last
sample attains the maximum magnitude. -/
theorem chain_absLt_last (dp : List ℚ)
    (hc : List.Chain' (fun a b => |a| < |b|) dp) (hne : dp ≠ []) :
    |dp.getLastD 0| = maxAbs dp := by
  haveI : IsTrans ℚ (fun a b => |a| < |b|) := ⟨fun _ _ _ h1 h2 => h1.trans h2⟩
  have hpw : dp.Pairwise (fun a b => |a| < |b|) := List.chain'_iff_pairwise.mp hc
  have hlast_eq : dp.getLastD 0 = dp.getLast hne := by
    rw [List.getLastD_eq_getLast?, List.getLast?_eq_getLast dp hne]
    rfl
  have hlast_mem : dp.getLastD 0 ∈ dp := by
    rw [hlast_eq]
    exact List.getLast_mem hne
  have hub : ∀ x ∈ dp, |x| ≤ |dp.getLastD 0| := by
    have hsplit : dp.dropLast ++ [dp.getLast hne] = dp := List.dropLast_append_getLast hne
    intro x hx
    rw [← hsplit] at hx hpw
    rcases List.mem_append.mp hx with h | h
    · have := (List.pairwise_append.mp hpw).2.2 x h (dp.getLast hne) (by simp)
      rw [hlast_eq]
      exact le_of_lt this
    · rw [hlast_eq, List.mem_singleton.mp h]
  have hmemM : |dp.getLastD 0| ∈ dp.map (fun x => |x|) :=
    List.mem_map.mpr ⟨dp.getLastD 0, hlast_mem, rfl⟩
  have hMne : dp.map (fun x => |x|) ≠ [] := by
    cases dp with
    | nil => exact absurd rfl hne
    | cons y ys => simp
  obtain ⟨hmem, hub'⟩ := npMax_spec _ hMne
  apply le_antisymm
  · exact hub' _ hmemM
  · obtain ⟨y, hy, hyeq⟩ := List.mem_map.mp hmem
    rw [maxAbs] at *
    rw [← hyeq]
    exact hub y hy

/-- C5 (amended): the ultimate displacement used by the energy, farthest-point,
ASCE, EEEP and elastic-yield methods is the magnitude of the sample at the
displacement magnitude-argmax, which equals the maximum of `|displacement|`;
the Park method uses the last sample, which attains that same maximum on any
branch with strictly increasing `|displacement|`; the geometric method instead
uses `|displacement|` at the FORCE magnitude-argmax sample.  In every case the
result is `ultimate / yield` when the computed yield displacement is positive
(and 1 otherwise, see `ductility_floor`). -/
theorem ductility_ultimate (dp f : List ℚ) :
    (maxAbsAt dp = maxAbs dp) ∧
    (0 < maxAbsAt f → 0 < energyYieldDisp dp f →
      calc_energy_ductility dp f = maxAbs dp / energyYieldDisp dp f) ∧
    (0 < asceYieldDisp dp f →
      calc_asce_ductility dp f = maxAbs dp / asceYieldDisp dp f) ∧
    (0 < maxAbsAt f → 0 < eeepYieldDisp dp f →
      calc_eeep_ductility dp f = maxAbs dp / eeepYieldDisp dp f) ∧
    (parkK0 dp f ≠ 0 → 0 < elasticYieldDisp dp f →
      calc_elastic_yield_ductility dp f = maxAbs dp / elasticYieldDisp dp f) ∧
    (¬ |dp.getD (farthestMaxIdx dp) 0| < 1/1000000 → 0 < farthestYieldDisp dp f →
      calc_farthest_ductility dp f = maxAbs dp / farthestYieldDisp dp f) ∧
    (List.Chain' (fun a b => |a| < |b|) dp → dp ≠ [] → |dp.getLastD 0| = maxAbs dp) ∧
    (∀ i, ¬ dp.length < 3 → parkK0 dp f ≠ 0 → parkYieldIdx dp f = some i →
      0 < parkYieldDisp dp f →
      calc_park_ductility dp f = |dp.getLastD 0| / parkYieldDisp dp f) ∧
    (0 < geoYieldDisp dp f →
      calc_geometric_ductility dp f = |dp.getD (geoMaxIdx f) 0| / geoYieldDisp dp f) := by
  refine ⟨maxAbsAt_eq dp, ?_, ?_, ?_, ?_, ?_, chain_absLt_last dp, ?_, ?_⟩
  · intro hf hyd
    simp only [calc_energy_ductility]
    rw [if_pos hf, if_pos hyd, maxAbsAt_eq]
  · intro hyd
    simp only [calc_asce_ductility]
    rw [if_pos hyd, maxAbsAt_eq]
  · intro hf hyd
    simp only [calc_eeep_ductility]
    rw [if_pos hf, if_pos hyd, maxAbsAt_eq]
  · intro hk hyd
    simp only [calc_elastic_yield_ductility]
    rw [if_neg hk, if_pos hyd, maxAbsAt_eq]
  · intro hnd hyd
    have hydv : farthestYieldDisp dp f = |dp.getD (farthestYieldIdx dp f) 0| := by
      unfold farthestYieldDisp
      rw [if_neg hnd]
    have hmax : |dp.getD (farthestMaxIdx dp) 0| = maxAbs dp := by
      rw [← maxAbsAt_eq]
      rfl
    simp only [calc_farthest_ductility]
    rw [if_neg hnd, hydv, hmax]
    rw [hydv] at hyd
    rw [if_pos hyd]
  · intro i h3 hk hidx hyd
    have hpd : parkYieldDisp dp f = |dp.getD i 0| := by
      unfold parkYieldDisp
      rw [hidx]
    simp only [calc_park_ductility, hidx]
    rw [if_neg h3, if_neg hk, hpd]
    rw [hpd] at hyd
    rw [if_pos hyd]
  · intro hyd
    simp only [calc_geometric_ductility]
    rw [if_pos hyd]

/-- C5 counterexample: on the branch `dp = [0, 1, 2]`, `f = [0, 10, 5]` (a
softening branch whose peak force occurs before the largest displacement) the
geometric method returns 1, whereas the claimed formula — `|displacement|` at
the displacement magnitude-argmax sample divided by the (positive) yield
displacement — would give `2 / 1 = 2`. -/
theorem ductility_ultimate_counterexample :
    calc_geometric_ductility [0, 1, 2] [0, 10, 5] = 1 ∧
    geoYieldDisp [0, 1, 2] [0, 10, 5] = 1 ∧
    maxAbs [0, 1, 2] = 2 ∧
    calc_geometric_ductility [0, 1, 2] [0, 10, 5] ≠
      maxAbs [0, 1, 2] / geoYieldDisp [0, 1, 2] [0, 10, 5] := by
  have h1 : geoYieldDisp [0, 1, 2] [0, 10, 5] = 1 := by
    norm_num [geoYieldDisp, geoYieldIdx, argmaxIdx, argmaxGo, argminIdx, argminGo,
      abs_of_nonneg]
  have h2 : calc_geometric_ductility [0, 1, 2] [0, 10, 5] = 1 := by
    norm_num [calc_geometric_ductility, geoMaxIdx, h1, argmaxIdx, argmaxGo]
  have h3 : maxAbs ([0, 1, 2] : List ℚ) = 2 := by
    norm_num [maxAbs, npMax]
  refine ⟨h2, h1, h3, ?_⟩
  rw [h1, h2, h3]
  norm_num

/-- Witness for C5 on `dp = [0, 1, 2]`, `f = [0, 10, 5]`: the ASCE and
geometric characterizations with their positivity hypotheses discharged, and
the last-sample-is-maximal fact for the strictly increasing branch. -/
theorem ductility_ultimate_witness :
    maxAbsAt [0, 1, 2] = maxAbs [0, 1, 2] ∧
    0 < asceYieldDisp [0, 1, 2] [0, 10, 5] ∧
    calc_asce_ductility [0, 1, 2] [0, 10, 5] =
      maxAbs [0, 1, 2] / asceYieldDisp [0, 1, 2] [0, 10, 5] ∧
    |([0, 1, 2] : List ℚ).getLastD 0| = maxAbs [0, 1, 2] ∧
    calc_geometric_ductility [0, 1, 2] [0, 10, 5] =
      |([0, 1, 2] : List ℚ).getD (geoMaxIdx [0, 10, 5]) 0| /
        geoYieldDisp [0, 1, 2] [0, 10, 5] := by
  have h := ductility_ultimate [0, 1, 2] [0, 10, 5]
  have hasce : 0 < asceYieldDisp [0, 1, 2] [0, 10, 5] := by
    norm_num [asceYieldDisp, asceYieldIdx, npMax, argminIdx, argminGo, abs_of_nonneg]
  have hgeo : 0 < geoYieldDisp [0, 1, 2] [0, 10, 5] := by
    norm_num [geoYieldDisp, geoYieldIdx, argmaxIdx, argmaxGo, argminIdx, argminGo,
      abs_of_nonneg]
  have hchain : List.Chain' (fun a b => |a| < |b|) ([0, 1, 2] : List ℚ) := by
    norm_num [List.chain'_cons]
  exact ⟨h.1, hasce, h.2.2.1 hasce, h.2.2.2.2.2.2.1 hchain (by simp),
    h.2.2.2.2.2.2.2.2 hgeo⟩

/-- Invariant of the envelope accumulation loop: under a measure `g`, a
state-measure `t` and a state predicate `S` compatible with the acceptance
condition, the accumulated branch keeps a strictly `g`-increasing chain whose
last element is bounded by the running extreme, and the initial branch
content is preserved as a prefix. -/
theorem envFold_spec (C : ℚ → ℚ × ℚ → Prop) [inst : ∀ m p, Decidable (C m p)]
    (u : ℚ × ℚ → ℚ) (g : ℚ × ℚ → ℚ) (t : ℚ → ℚ) (S : ℚ → Prop)
    (hC : ∀ m p, S m → C m p → t m < g p)
    (hu : ∀ m p, S m → C m p → g p ≤ t (u p))
    (hS : ∀ m p, S m → C m p → S (u p)) :
    ∀ (l : List (ℚ × ℚ)) (m0 : ℚ) (acc0 : List (ℚ × ℚ)), S m0 →
      List.Chain' (fun a b => g a < g b) acc0 →
      (∀ a ∈ acc0.getLast?, g a ≤ t m0) →
      S (envFold C u (m0, acc0) l).1 ∧
      List.Chain' (fun a b => g a < g b) (envFold C u (m0, acc0) l).2 ∧
      (∀ a ∈ (envFold C u (m0, acc0) l).2.getLast?, g a ≤ t (envFold C u (m0, acc0) l).1) ∧
      acc0 <+: (envFold C u (m0, acc0) l).2 := by
  intro l
  induction l with
  | nil =>
    intro m0 acc0 hS0 hch hlast
    exact ⟨hS0, hch, hlast, List.prefix_rfl⟩
  | cons p l ih =>
    intro m0 acc0 hS0 hch hlast
    by_cases hc : C m0 p
    · have hstep : envFold C u (m0, acc0) (p :: l) = envFold C u (u p, acc0 ++ [p]) l := by
        simp [envFold, hc]
      rw [hstep]
      have hch' : List.Chain' (fun a b => g a < g b) (acc0 ++ [p]) := by
        rw [List.chain'_append]
        refine ⟨hch, List.chain'_singleton p, ?_⟩
        intro a ha b hb
        simp only [List.head?_cons, Option.mem_def, Option.some.injEq] at hb
        subst hb
        exact lt_of_le_of_lt (hlast a ha) (hC m0 p hS0 hc)
      have hlast' : ∀ a ∈ (acc0 ++ [p]).getLast?, g a ≤ t (u p) := by
        intro a ha
        rw [List.getLast?_concat] at ha
        simp only [Option.mem_def, Option.some.injEq] at ha
        subst ha
        exact hu m0 p hS0 hc
      obtain ⟨r1, r2, r3, r4⟩ := ih (u p) (acc0 ++ [p]) (hS m0 p hS0 hc) hch' hlast'
      exact ⟨r1, r2, r3, (List.prefix_append acc0 [p]).trans r4⟩
    · have hstep : envFold C u (m0, acc0) (p :: l) = envFold C u (m0, acc0) l := by
        simp [envFold, hc]
      rw [hstep]
      exact ih m0 acc0 hS0 hch hlast

/-- Specialisation with measure `|disp|` and a start point at displacement 0:
the produced branch starts at 0 and its displacement magnitudes strictly
increase. -/
theorem envBranch_spec (C : ℚ → ℚ × ℚ → Prop) [inst : ∀ m p, Decidable (C m p)]
    (u : ℚ × ℚ → ℚ) (t : ℚ → ℚ) (S : ℚ → Prop)
    (hC : ∀ m p, S m → C m p → t m < |p.1|)
    (hu : ∀ m p, S m → C m p → |p.1| ≤ t (u p))
    (hS : ∀ m p, S m → C m p → S (u p))
    (l : List (ℚ × ℚ)) (y : ℚ) (hS0 : S 0) (ht0 : 0 ≤ t 0) :
    ((envFold C u (0, [(0, y)]) l).2.map Prod.fst).head? = some 0 ∧
    List.Chain' (fun a b => |a| < |b|) ((envFold C u (0, [(0, y)]) l).2.map Prod.fst) := by
  obtain ⟨-, hchain, -, hpre⟩ :=
    envFold_spec C u (fun p => |p.1|) t S hC hu hS l 0 [(0, y)] hS0
      (List.chain'_singleton _)
      (by
        intro a ha
        simp only [List.getLast?_singleton, Option.mem_def, Option.some.injEq] at ha
        subst ha
        simpa using ht0)
  constructor
  · obtain ⟨tl, htl⟩ := hpre
    rw [← htl]
    simp
  · rw [List.chain'_map]
    exact hchain

/-- C1: for every input series and both extraction methods, each returned
skeleton branch begins at displacement 0 and its displacement sequence is
strictly monotone increasing in absolute value. -/
theorem skeleton_branch_mono (d f : List ℚ) :
    ((extract_outer_envelope d f).positive.disp.head? = some 0 ∧
      List.Chain' (fun a b => |a| < |b|) (extract_outer_envelope d f).positive.disp) ∧
    ((extract_outer_envelope d f).negative.disp.head? = some 0 ∧
      List.Chain' (fun a b => |a| < |b|) (extract_outer_envelope d f).negative.disp) ∧
    ((extract_peak_points d f).positive.disp.head? = some 0 ∧
      List.Chain' (fun a b => |a| < |b|) (extract_peak_points d f).positive.disp) ∧
    ((extract_peak_points d f).negative.disp.head? = some 0 ∧
      List.Chain' (fun a b => |a| < |b|) (extract_peak_points d f).negative.disp) := by
  have hdt1 : (0:ℚ) < max (1/100) (maxAbs d * (5/1000)) :=
    lt_of_lt_of_le (by norm_num) (le_max_left _ _)
  have hdt2 : (0:ℚ) < max (1/100) (maxAbs d * (1/100)) :=
    lt_of_lt_of_le (by norm_num) (le_max_left _ _)
  refine ⟨?_, ?_, ?_, ?_⟩
  · simp only [extract_outer_envelope]
    apply envBranch_spec _ _ (fun m => m) (fun m => (0:ℚ) ≤ m)
    · intro m p _ hc
      exact lt_of_lt_of_le (by linarith [hc.2.1]) (le_abs_self p.1)
    · intro m p _ hc
      rw [abs_of_pos (lt_trans hdt1 hc.1)]
    · intro m p _ hc
      exact le_of_lt (lt_trans hdt1 hc.1)
    · exact le_refl 0
    · exact le_refl 0
  · simp only [extract_outer_envelope]
    apply envBranch_spec _ _ (fun m => -m) (fun m => m ≤ (0:ℚ))
    · intro m p _ hc
      refine lt_of_lt_of_le (by linarith [hc.2.1]) (neg_le_abs p.1)
    · intro m p _ hc
      rw [abs_of_neg (lt_trans hc.1 (by linarith))]
    · intro m p _ hc
      exact le_of_lt (lt_trans hc.1 (by linarith))
    · exact le_refl 0
    · norm_num
  · simp only [extract_peak_points]
    apply envBranch_spec _ _ (fun m => m) (fun m => (0:ℚ) ≤ m)
    · intro m p _ hc
      exact lt_of_lt_of_le (by linarith) (le_abs_self p.1)
    · intro m p hm hc
      rw [abs_of_pos (by linarith)]
    · intro m p hm hc
      have : (0:ℚ) < p.1 := by linarith
      exact le_of_lt this
    · exact le_refl 0
    · exact le_refl 0
  · simp only [extract_peak_points]
    apply envBranch_spec _ _ (fun m => |m|) (fun _ => True)
    · intro m p _ hc
      linarith
    · intro m p _ _
      exact le_refl _
    · intro m p _ _
      exact trivial
    · exact trivial
    · norm_num

/-- The initial value bounds a `foldl min` from above. -/
theorem foldl_min_le (l : List ℚ) : ∀ a : ℚ, l.foldl min a ≤ a := by
  induction l with
  | nil => intro a; simp
  | cons y ys ih =>
    intro a
    calc ys.foldl min (min a y) ≤ min a y := ih (min a y)
    _ ≤ a := min_le_left a y

/-- A `foldl min` is below every member. -/
theorem foldl_min_le_mem (l : List ℚ) : ∀ (a x : ℚ), x ∈ l → l.foldl min a ≤ x := by
  induction l with
  | nil => intro a x hx; cases hx
  | cons y ys ih =>
    intro a x hx
    rcases List.mem_cons.mp hx with h | h
    · subst h
      calc ys.foldl min (min a x) ≤ min a x := foldl_min_le ys (min a x)
      _ ≤ x := min_le_right a x
    · exact ih (min a y) x h

/-- A `foldl min` is the initial value or a member. -/
theorem foldl_min_mem (l : List ℚ) : ∀ a : ℚ, l.foldl min a = a ∨ l.foldl min a ∈ l := by
  induction l with
  | nil => intro a; exact Or.inl rfl
  | cons y ys ih =>
    intro a
    rcases ih (min a y) with h | h
    · rcases min_choice a y with hm | hm
      · exact Or.inl (by rw [List.foldl_cons, h, hm])
      · exact Or.inr (by rw [List.foldl_cons, h, hm]; exact List.mem_cons_self y ys)
    · exact Or.inr (List.mem_cons_of_mem y h)

/-- `np.min` of a nonempty list is a member and a lower bound. -/
theorem npMin_spec (l : List ℚ) (h : l ≠ []) :
    npMin l ∈ l ∧ ∀ x ∈ l, npMin l ≤ x := by
  cases l with
  | nil => exact absurd rfl h
  | cons y ys =>
    constructor
    · rcases foldl_min_mem ys y with h | h
      · rw [npMin, h]; exact List.mem_cons_self y ys
      · exact List.mem_cons_of_mem y h
    · intro x hx
      rcases List.mem_cons.mp hx with hxy | hxy
      · subst hxy; exact foldl_min_le ys x
      · exact foldl_min_le_mem ys y x hxy

/-- The head of a list sorted ascending by first component carries the
minimum first component of any permutation of it. -/
theorem sorted_headD_eq_npMin (l l0 : List (ℚ × ℚ)) (hne : l ≠ [])
    (hs : List.Sorted (fun a b : ℚ × ℚ => a.1 ≤ b.1) l) (hperm : l.Perm l0) :
    (l.map Prod.fst).headD 0 = npMin (l0.map Prod.fst) := by
  cases l with
  | nil => exact absurd rfl hne
  | cons p rest =>
    have hne0 : l0.map Prod.fst ≠ [] := by
      have : l0 ≠ [] := by
        intro h0
        rw [h0] at hperm
        exact List.cons_ne_nil p rest (List.Perm.eq_nil hperm)
      simpa using this
    obtain ⟨hmem, hlb⟩ := npMin_spec _ hne0
    have hhead : ∀ q ∈ p :: rest, p.1 ≤ q.1 := by
      intro q hq
      rcases List.mem_cons.mp hq with h | h
      · rw [h]
      · exact (List.pairwise_cons.mp hs).1 q h
    apply le_antisymm
    · simp only [List.map_cons, List.headD_cons]
      obtain ⟨q, hq0, hq⟩ := List.mem_map.mp hmem
      rw [← hq]
      exact hhead q (hperm.mem_iff.mpr hq0)
    · apply hlb
      simp only [List.map_cons, List.headD_cons]
      exact List.mem_map.mpr ⟨p, hperm.mem_iff.mp (List.mem_cons_self p rest), rfl⟩

/-- The last element of a list sorted ascending by first component carries
the maximum first component of any permutation of it. -/
theorem sorted_getLastD_eq_npMax (l l0 : List (ℚ × ℚ)) (hne : l ≠ [])
    (hs : List.Sorted (fun a b : ℚ × ℚ => a.1 ≤ b.1) l) (hperm : l.Perm l0) :
    (l.map Prod.fst).getLastD 0 = npMax (l0.map Prod.fst) := by
  have hne0 : l0.map Prod.fst ≠ [] := by
    have h0 : l0 ≠ [] := by
      intro h0
      rw [h0] at hperm
      exact hne (List.Perm.eq_nil hperm)
    simpa using h0
  obtain ⟨hmem, hub⟩ := npMax_spec _ hne0
  have hlast_eq : l.getLastD ((0:ℚ), (0:ℚ)) = l.getLast hne := by
    rw [List.getLastD_eq_getLast?, List.getLast?_eq_getLast l hne]
    rfl
  have hmap_last : (l.map Prod.fst).getLastD 0 = (l.getLast hne).1 := by
    have hmne : l.map Prod.fst ≠ [] := by simpa using hne
    rw [List.getLastD_eq_getLast?, List.getLast?_eq_getLast _ hmne]
    simp [List.getLast_map]
  have hall : ∀ q ∈ l, q.1 ≤ (l.getLast hne).1 := by
    have hsplit : l.dropLast ++ [l.getLast hne] = l := List.dropLast_append_getLast hne
    intro q hq
    rw [← hsplit] at hq hs
    rcases List.mem_append.mp hq with h | h
    · exact (List.pairwise_append.mp hs).2.2 q h (l.getLast hne) (by simp)
    · rw [List.mem_singleton.mp h]
  rw [hmap_last]
  apply le_antisymm
  · apply hub
    exact List.mem_map.mpr ⟨l.getLast hne, hperm.mem_iff.mp (List.getLast_mem hne), rfl⟩
  · obtain ⟨q, hq0, hq⟩ := List.mem_map.mp hmem
    rw [← hq]
    exact hall q (hperm.mem_iff.mpr hq0)

/-- Dedup never lengthens a list. -/
theorem dedupByXGo_length_le (l : List (ℚ × ℚ)) :
    ∀ seen, (dedupByXGo seen l).length ≤ l.length := by
  induction l with
  | nil => intro seen; simp [dedupByXGo]
  | cons p rest ih =>
    intro seen
    by_cases hmem : p.1 ∈ seen
    · simp only [dedupByXGo, if_pos hmem]
      exact le_trans (ih seen) (Nat.le_succ _)
    · simp only [dedupByXGo, if_neg hmem, List.length_cons]
      exact Nat.succ_le_succ (ih _)

/-- `np.linspace` returns exactly `n` points. -/
theorem linspace_length (a b : ℚ) (n : ℕ) : (linspace a b n).length = n := by
  unfold linspace
  split_ifs with h0 h1
  · simp [h0]
  · simp [h1]
  · rw [List.length_map, List.length_range]

/-- C6: with fewer than 4 usable points (after dedup-by-x keeping first
occurrences) the smoothing operation returns its input unchanged; otherwise
it returns exactly `num_points` output points in each component, and the
output x grid is linearly spaced over `[x_min, x_max]` of the usable points.
`evalAlgo` abstracts the scipy interpolant of the selected algorithm; the
only fact used about it is that it evaluates pointwise on the query grid. -/
theorem interpolate_smooth_spec (evalAlgo : List ℚ → List ℚ → List ℚ → List ℚ)
    (numPoints : ℕ) (x y : List ℚ)
    (hEval : ∀ xs ys q, (evalAlgo xs ys q).length = q.length) :
    ((dedupByX (x.zip y)).length < 4 →
      interpolate_smooth evalAlgo numPoints x y = (x, y)) ∧
    (4 ≤ (dedupByX (x.zip y)).length →
      (interpolate_smooth evalAlgo numPoints x y).1.length = numPoints ∧
      (interpolate_smooth evalAlgo numPoints x y).2.length = numPoints ∧
      (interpolate_smooth evalAlgo numPoints x y).1 =
        linspace (npMin ((dedupByX (x.zip y)).map Prod.fst))
          (npMax ((dedupByX (x.zip y)).map Prod.fst)) numPoints) := by
  constructor
  · intro h4
    simp only [interpolate_smooth]
    by_cases h1 : x.length < 4
    · rw [if_pos h1]
    · rw [if_neg h1, if_pos h4]
  · intro h4
    have hx4 : ¬ x.length < 4 := by
      have h1 : (dedupByX (x.zip y)).length ≤ (x.zip y).length :=
        dedupByXGo_length_le _ []
      have h2 : (x.zip y).length ≤ x.length := by
        rw [List.length_zip]
        exact Nat.min_le_left _ _
      omega
    simp only [interpolate_smooth]
    rw [if_neg hx4, if_neg (not_lt.mpr h4)]
    set uniq := dedupByX (x.zip y) with huniq
    set s := List.insertionSort (fun a b : ℚ × ℚ => a.1 ≤ b.1) uniq with hsdef
    have hperm : s.Perm uniq := List.perm_insertionSort _ uniq
    have hsort : List.Sorted (fun a b : ℚ × ℚ => a.1 ≤ b.1) s :=
      List.sorted_insertionSort _ uniq
    have hsne : s ≠ [] := by
      intro h0
      have hl := hperm.length_eq
      rw [h0] at hl
      simp only [List.length_nil] at hl
      omega
    have hhead := sorted_headD_eq_npMin s uniq hsne hsort hperm
    have hlast := sorted_getLastD_eq_npMax s uniq hsne hsort hperm
    refine ⟨linspace_length _ _ _, ?_, ?_⟩
    · show (evalAlgo (s.map Prod.fst) (s.map Prod.snd)
        (linspace ((s.map Prod.fst).headD 0) ((s.map Prod.fst).getLastD 0)
          numPoints)).length = numPoints
      rw [hEval]
      exact linspace_length _ _ _
    · show linspace ((s.map Prod.fst).headD 0) ((s.map Prod.fst).getLastD 0) numPoints =
        linspace (npMin (uniq.map Prod.fst)) (npMax (uniq.map Prod.fst)) numPoints
      rw [hhead, hlast]

/-- Every entry of a `dictAssign` result is an old entry or the new one. -/
theorem dictAssign_mem (i : ℕ) (p : Sample) :
    ∀ (l : List (ℕ × Sample)) (e : ℕ × Sample),
      e ∈ dictAssign i p l → e ∈ l ∨ e = (i, p) := by
  intro l
  induction l with
  | nil =>
    intro e he
    simp only [dictAssign, List.mem_singleton] at he
    exact Or.inr he
  | cons hd rest ih =>
    intro e he
    simp only [dictAssign] at he
    split_ifs at he with h1
    · rcases List.mem_cons.mp he with h | h
      · exact Or.inr h
      · exact Or.inl (List.mem_cons_of_mem hd h)
    · rcases List.mem_cons.mp he with h | h
      · exact Or.inl (List.mem_cons.mpr (Or.inl h))
      · rcases ih e h with h' | h'
        · exact Or.inl (List.mem_cons_of_mem hd h')
        · exact Or.inr h'

/-- `dictDelete` removes entries: its result is a sublist. -/
theorem dictDelete_sublist (k : ℚ) :
    ∀ l : List (ℕ × Sample), List.Sublist (dictDelete k l) l := by
  intro l
  induction l with
  | nil => simp [dictDelete]
  | cons hd rest ih =>
    simp only [dictDelete]
    split_ifs with h1
    · exact List.sublist_cons_self hd rest
    · exact ih.cons₂ hd

/-- `dictAssign` keeps the stored indices pairwise distinct when the new
index is fresh (larger than every stored one). -/
theorem dictAssign_idx_pairwise (i : ℕ) (p : Sample) :
    ∀ l : List (ℕ × Sample),
      (∀ e ∈ l, e.1 < i) →
      List.Pairwise (fun a b : ℕ × Sample => a.1 ≠ b.1) l →
      List.Pairwise (fun a b : ℕ × Sample => a.1 ≠ b.1) (dictAssign i p l) := by
  intro l
  induction l with
  | nil =>
    intro _ _
    simp [dictAssign]
  | cons hd rest ih =>
    intro hlt hpw
    obtain ⟨hhd, hrest⟩ := List.pairwise_cons.mp hpw
    simp only [dictAssign]
    split_ifs with h1
    · rw [List.pairwise_cons]
      refine ⟨?_, hrest⟩
      intro e he
      have := hlt e (List.mem_cons_of_mem hd he)
      omega
    · rw [List.pairwise_cons]
      refine ⟨?_, ih (fun e he => hlt e (List.mem_cons_of_mem hd he)) hrest⟩
      intro e he
      rcases dictAssign_mem i p rest e he with h | h
      · exact hhd e h
      · rw [h]
        have := hlt hd (List.mem_cons_self hd rest)
        simp only []
        omega

/-- `dictAssign` keeps the stored keys (sample displacements) pairwise
distinct: an exact key collision is resolved by updating in place. -/
theorem dictAssign_key_pairwise (i : ℕ) (p : Sample) :
    ∀ l : List (ℕ × Sample),
      List.Pairwise (fun a b : ℕ × Sample => a.2.d ≠ b.2.d) l →
      List.Pairwise (fun a b : ℕ × Sample => a.2.d ≠ b.2.d) (dictAssign i p l) := by
  intro l
  induction l with
  | nil =>
    intro _
    simp [dictAssign]
  | cons hd rest ih =>
    intro hpw
    obtain ⟨hhd, hrest⟩ := List.pairwise_cons.mp hpw
    simp only [dictAssign]
    split_ifs with h1
    · rw [List.pairwise_cons]
      refine ⟨?_, hrest⟩
      intro e he
      have := hhd e he
      simp only []
      rw [← h1]
      exact this
    · rw [List.pairwise_cons]
      refine ⟨?_, ih hrest⟩
      intro e he
      rcases dictAssign_mem i p rest e he with h | h
      · exact hhd e h
      · rw [h]
        exact h1

/-- `dictInsert` on a failed key scan. -/
theorem dictInsert_eq_of_none (tol : ℚ) (i : ℕ) (p : Sample)
    (dict : List (ℕ × Sample)) (hf : dictFindSimilar tol p.d dict = none) :
    dictInsert tol i p dict = dictAssign i p dict := by
  rw [dictInsert, hf]

/-- `dictInsert` on a successful key scan. -/
theorem dictInsert_eq_of_some (tol : ℚ) (i : ℕ) (p : Sample)
    (dict : List (ℕ × Sample)) (e' : ℕ × Sample)
    (hf : dictFindSimilar tol p.d dict = some e') :
    dictInsert tol i p dict =
      if |p.f| > |e'.2.f| then dictAssign i p (dictDelete e'.2.d dict) else dict := by
  rw [dictInsert, hf]

/-- Every entry of a `dictInsert` result is an old entry or the new one. -/
theorem dictInsert_mem (tol : ℚ) (i : ℕ) (p : Sample)
    (dict : List (ℕ × Sample)) (e : ℕ × Sample)
    (he : e ∈ dictInsert tol i p dict) : e ∈ dict ∨ e = (i, p) := by
  cases hf : dictFindSimilar tol p.d dict with
  | none =>
    rw [dictInsert_eq_of_none tol i p dict hf] at he
    exact dictAssign_mem i p dict e he
  | some e' =>
    rw [dictInsert_eq_of_some tol i p dict e' hf] at he
    split_ifs at he with h1
    · rcases dictAssign_mem i p _ e he with h | h
      · exact Or.inl ((dictDelete_sublist e'.2.d dict).mem h)
      · exact Or.inr h
    · exact Or.inl he

/-- `dictInsert` keeps the stored indices pairwise distinct when the new
index is fresh. -/
theorem dictInsert_idx_pairwise (tol : ℚ) (i : ℕ) (p : Sample)
    (dict : List (ℕ × Sample))
    (hlt : ∀ e ∈ dict, e.1 < i)
    (hpw : List.Pairwise (fun a b : ℕ × Sample => a.1 ≠ b.1) dict) :
    List.Pairwise (fun a b : ℕ × Sample => a.1 ≠ b.1) (dictInsert tol i p dict) := by
  cases hf : dictFindSimilar tol p.d dict with
  | none =>
    rw [dictInsert_eq_of_none tol i p dict hf]
    exact dictAssign_idx_pairwise i p dict hlt hpw
  | some e' =>
    rw [dictInsert_eq_of_some tol i p dict e' hf]
    split_ifs with h1
    · refine dictAssign_idx_pairwise i p _ ?_ (hpw.sublist (dictDelete_sublist e'.2.d dict))
      intro e he
      exact hlt e ((dictDelete_sublist e'.2.d dict).mem he)
    · exact hpw

/-- `dictInsert` keeps the stored keys pairwise distinct. -/
theorem dictInsert_key_pairwise (tol : ℚ) (i : ℕ) (p : Sample)
    (dict : List (ℕ × Sample))
    (hpw : List.Pairwise (fun a b : ℕ × Sample => a.2.d ≠ b.2.d) dict) :
    List.Pairwise (fun a b : ℕ × Sample => a.2.d ≠ b.2.d) (dictInsert tol i p dict) := by
  cases hf : dictFindSimilar tol p.d dict with
  | none =>
    rw [dictInsert_eq_of_none tol i p dict hf]
    exact dictAssign_key_pairwise i p dict hpw
  | some e' =>
    rw [dictInsert_eq_of_some tol i p dict e' hf]
    split_ifs with h1
    · exact dictAssign_key_pairwise i p _ (hpw.sublist (dictDelete_sublist e'.2.d dict))
    · exact hpw

/-- Invariant of the dedup loop: the dictionary keeps pairwise distinct,
in-bounds stored indices faithfully paired with series samples, and
pairwise distinct keys. -/
theorem dedupFold_spec (tol : ℚ) (L : List Sample) :
    ∀ (l : List Sample) (i : ℕ) (dict : List (ℕ × Sample)),
      l = L.drop i →
      (∀ e ∈ dict, e.1 < i) →
      List.Pairwise (fun a b : ℕ × Sample => a.1 ≠ b.1) dict →
      List.Pairwise (fun a b : ℕ × Sample => a.2.d ≠ b.2.d) dict →
      (∀ e ∈ dict, e.1 < L.length ∧ L.getD e.1 default = e.2) →
      List.Pairwise (fun a b : ℕ × Sample => a.1 ≠ b.1) (dedupFold tol i dict l) ∧
      List.Pairwise (fun a b : ℕ × Sample => a.2.d ≠ b.2.d) (dedupFold tol i dict l) ∧
      (∀ e ∈ dedupFold tol i dict l, e.1 < L.length ∧ L.getD e.1 default = e.2) := by
  intro l
  induction l with
  | nil =>
    intro i dict _ _ hpwi hpwk hbf
    exact ⟨hpwi, hpwk, hbf⟩
  | cons p l ih =>
    intro i dict hdrop hlt hpwi hpwk hbf
    have hi : i < L.length := by
      by_contra hge
      push_neg at hge
      rw [List.drop_eq_nil_of_le hge] at hdrop
      exact List.cons_ne_nil p l hdrop
    have hp : L.getD i default = p := by
      have h0 : L[i]? = some p := by
        have := List.getElem?_drop L i 0
        rw [← hdrop] at this
        simpa using this.symm
      simp [List.getD_eq_getElem?_getD, h0]
    have hl : l = L.drop (i + 1) := by
      have ht : (L.drop i).tail = L.drop (i + 1) := List.tail_drop L i
      rw [← hdrop] at ht
      simpa using ht
    have hstep : dedupFold tol i dict (p :: l) =
        dedupFold tol (i + 1) (dictInsert tol i p dict) l := rfl
    rw [hstep]
    have hlt' : ∀ e ∈ dictInsert tol i p dict, e.1 < i + 1 := by
      intro e he
      rcases dictInsert_mem tol i p dict e he with h | h
      · exact Nat.lt_succ_of_lt (hlt e h)
      · rw [h]
        exact Nat.lt_succ_self i
    have hbf' : ∀ e ∈ dictInsert tol i p dict,
        e.1 < L.length ∧ L.getD e.1 default = e.2 := by
      intro e he
      rcases dictInsert_mem tol i p dict e he with h | h
      · exact hbf e h
      · rw [h]
        exact ⟨hi, hp⟩
    exact ih (i + 1) (dictInsert tol i p dict) hl hlt'
      (dictInsert_idx_pairwise tol i p dict hlt hpwi)
      (dictInsert_key_pairwise tol i p dict hpwk) hbf'

/-- Reading a list at a strictly increasing, in-bounds index list yields a
sublist (in particular a subsequence in original order). -/
theorem map_getD_sublist :
    ∀ (L : List Sample) (idxs : List ℕ),
      List.Pairwise (· < ·) idxs → (∀ i ∈ idxs, i < L.length) →
      List.Sublist (idxs.map (fun i => L.getD i default)) L := by
  intro L
  induction L with
  | nil =>
    intro idxs _ hbound
    cases idxs with
    | nil => simp
    | cons j rest =>
      exact absurd (hbound j (List.mem_cons_self j rest)) (by simp)
  | cons a L ih =>
    intro idxs hpw hbound
    cases idxs with
    | nil => simp
    | cons j rest =>
      obtain ⟨hj, hrest⟩ := List.pairwise_cons.mp hpw
      by_cases hj0 : j = 0
      · subst hj0
        have hpos : ∀ i ∈ rest, 1 ≤ i := fun i hi => hj i hi
        have hmap : rest.map (fun i => (a :: L).getD i default) =
            (rest.map (fun i => i - 1)).map (fun i => L.getD i default) := by
          rw [List.map_map]
          apply List.map_congr_left
          intro i hi
          have h1 : 1 ≤ i := hpos i hi
          obtain ⟨m, rfl⟩ := Nat.exists_eq_add_of_le h1
          simp [Nat.add_comm 1 m]
        have hpw' : List.Pairwise (· < ·) (rest.map (fun i => i - 1)) := by
          rw [List.pairwise_map]
          apply hrest.imp_of_mem
          intro x y hx hy hxy
          have := hpos x hx
          omega
        have hbound' : ∀ i ∈ rest.map (fun i => i - 1), i < L.length := by
          intro i hi
          obtain ⟨x, hx, rfl⟩ := List.mem_map.mp hi
          have := hbound x (List.mem_cons_of_mem _ hx)
          have := hpos x hx
          simp only [List.length_cons] at *
          omega
        simp only [List.map_cons, List.getD_cons_zero, hmap]
        exact (ih _ hpw' hbound').cons₂ a
      · have hpos : ∀ i ∈ j :: rest, 1 ≤ i := by
          intro i hi
          rcases List.mem_cons.mp hi with h | h
          · omega
          · have := hj i h
            omega
        have hmap : (j :: rest).map (fun i => (a :: L).getD i default) =
            ((j :: rest).map (fun i => i - 1)).map (fun i => L.getD i default) := by
          rw [List.map_map]
          apply List.map_congr_left
          intro i hi
          have h1 : 1 ≤ i := hpos i hi
          obtain ⟨m, rfl⟩ := Nat.exists_eq_add_of_le h1
          simp [Nat.add_comm 1 m]
        have hpw' : List.Pairwise (· < ·) ((j :: rest).map (fun i => i - 1)) := by
          rw [List.pairwise_map]
          apply hpw.imp_of_mem
          intro x y hx hy hxy
          have := hpos x hx
          omega
        have hbound' : ∀ i ∈ (j :: rest).map (fun i => i - 1), i < L.length := by
          intro i hi
          obtain ⟨x, hx, rfl⟩ := List.mem_map.mp hi
          have := hbound x hx
          have := hpos x hx
          simp only [List.length_cons] at *
          omega
        rw [hmap]
        exact (ih _ hpw' hbound').cons a

/-- C2 (amended): deduplication matches each sample greedily against the
current group keys (first key within `0.5 * disp_threshold`, in insertion
order); a match keeps the stored sample unless the new sample's `|force|` is
strictly larger, in which case the stored entry is deleted and the new
sample is written under its own displacement — a dictionary write that
overwrites in place any other surviving entry whose key equals the new
displacement exactly, dropping that entry's sample regardless of force.
The output is ordered by ascending original index — original time order, a
subsequence of the zero-snapped series — not by displacement value, and its
samples carry pairwise distinct displacements. -/
theorem preprocess_dedup_spec (s : List Sample) :
    List.Sublist (dedupSeries s) (snapSeries s) ∧
    List.Pairwise (fun a b : Sample => a.d ≠ b.d) (dedupSeries s) := by
  set L := snapSeries s with hL
  set tol := dispThresholdOf s * (1/2) with htol
  obtain ⟨hpwi, hpwk, hbf⟩ :=
    dedupFold_spec tol L L 0 [] (by simp) (by simp) (by simp) (by simp) (by simp)
  have hpwidx : List.Pairwise (· ≠ ·) ((dedupDict tol L).map Prod.fst) := by
    rw [List.pairwise_map]
    exact hpwi
  have hperm : List.Perm (dedupIndices tol L) ((dedupDict tol L).map Prod.fst) :=
    List.perm_insertionSort _ _
  have hsorted : List.Sorted (· ≤ ·) (dedupIndices tol L) :=
    List.sorted_insertionSort _ _
  have hnodup : (dedupIndices tol L).Nodup := hperm.nodup_iff.mpr hpwidx
  have hlt : List.Pairwise (· < ·) (dedupIndices tol L) := by
    have h := hsorted.and hnodup
    exact h.imp (fun hab => lt_of_le_of_ne hab.1 hab.2)
  have hmem_entry : ∀ i ∈ dedupIndices tol L,
      ∃ e ∈ dedupDict tol L, e.1 = i := by
    intro i hi
    obtain ⟨e, he, hee⟩ := List.mem_map.mp (hperm.mem_iff.mp hi)
    exact ⟨e, he, hee⟩
  have hser : dedupSeries s =
      (dedupIndices tol L).map (fun i => L.getD i default) := by
    rw [dedupSeries, ← hL, ← htol]
  constructor
  · rw [hser]
    apply map_getD_sublist L _ hlt
    intro i hi
    obtain ⟨e, he, hee⟩ := hmem_entry i hi
    rw [← hee]
    exact (hbf e he).1
  · rw [hser, List.pairwise_map]
    have hkeys : ∀ a ∈ dedupDict tol L, ∀ b ∈ dedupDict tol L, a ≠ b →
        a.2.d ≠ b.2.d :=
      hpwk.forall (fun x y h => h.symm)
    apply hlt.imp_of_mem
    intro i j hi hj hij
    obtain ⟨e, he, hee⟩ := hmem_entry i hi
    obtain ⟨e', he', hee'⟩ := hmem_entry j hj
    have hne : e ≠ e' := by
      intro hcontra
      rw [hcontra, hee'] at hee
      omega
    have hgd : L.getD i default = e.2 := by
      rw [← hee]
      exact (hbf e he).2
    have hgd' : L.getD j default = e'.2 := by
      rw [← hee']
      exact (hbf e' he').2
    rw [hgd, hgd']
    exact hkeys e he e' he' hne

/-- C2 counterexample, refuting two parts of the claim.  Ordering: on
`(d, f) = ([5, 3], [1, 1])` (two distinct displacement groups, time order
`5` then `3`), preprocessing returns the series in original time order
`[5, 3]`, not sorted ascending by group key —
`sorted(disp_to_max_force_idx.values())` sorts the stored *indices*.
Largest-`|force|`-kept: on `d = [1, 1.0008, 1.0004, 1.0004]`,
`f = [10, 5, 20, 6]` (thresholds `0.001` / `0.015`, tolerance `0.0005`, no
snapping), the force-20 sample first takes over the key-1 group; when the
force-6 sample later beats the key-1.0008 entry, the write
`dict[1.0004] = 3` overwrites the force-20 entry in place, so only
`(1.0004, 6)` survives even though its group contained `|force| = 20`. -/
theorem preprocess_dedup_counterexample :
    ((preprocess_data [⟨5, 1⟩, ⟨3, 1⟩]).map Sample.d = [5, 3] ∧
      ¬ List.Sorted (· ≤ ·) ((preprocess_data [⟨5, 1⟩, ⟨3, 1⟩]).map Sample.d)) ∧
    preprocess_data [⟨1, 10⟩, ⟨10008/10000, 5⟩, ⟨10004/10000, 20⟩, ⟨10004/10000, 6⟩] =
      [⟨10004/10000, 6⟩] ∧
    (⟨10004/10000, 20⟩ : Sample) ∈
      snapSeries [⟨1, 10⟩, ⟨10008/10000, 5⟩, ⟨10004/10000, 20⟩, ⟨10004/10000, 6⟩] ∧
    (∀ q ∈ preprocess_data
        [⟨1, 10⟩, ⟨10008/10000, 5⟩, ⟨10004/10000, 20⟩, ⟨10004/10000, 6⟩],
      |q.f| < 20) := by
  have hcollide : preprocess_data
      [⟨1, 10⟩, ⟨10008/10000, 5⟩, ⟨10004/10000, 20⟩, ⟨10004/10000, 6⟩] =
      [⟨10004/10000, 6⟩] := by
    norm_num [preprocess_data, dedupSeries, dedupIndices, dedupDict, dedupFold,
      dictInsert, dictFindSimilar, dictDelete, dictAssign, snapSeries, snapVal,
      dispThresholdOf, forceThresholdOf, maxAbs, minAbs, npMax, npMin,
      rezeroSeries, loadingStartIdx, loadingCond, findFirst,
      List.insertionSort, List.orderedInsert, abs_of_nonneg, abs_of_nonpos]
  have hsnap : snapSeries
      [⟨1, 10⟩, ⟨10008/10000, 5⟩, ⟨10004/10000, 20⟩, ⟨10004/10000, 6⟩] =
      [⟨1, 10⟩, ⟨10008/10000, 5⟩, ⟨10004/10000, 20⟩, ⟨10004/10000, 6⟩] := by
    norm_num [snapSeries, snapVal, dispThresholdOf, forceThresholdOf,
      maxAbs, minAbs, npMax, npMin, abs_of_nonneg]
  have horder : preprocess_data [⟨5, 1⟩, ⟨3, 1⟩] = [⟨5, 1⟩, ⟨3, 1⟩] := by
    norm_num [preprocess_data, dedupSeries, dedupIndices, dedupDict, dedupFold,
      dictInsert, dictFindSimilar, dictDelete, dictAssign, snapSeries, snapVal,
      dispThresholdOf, forceThresholdOf, maxAbs, minAbs, npMax, npMin,
      rezeroSeries, loadingStartIdx, loadingCond, findFirst,
      List.insertionSort, List.orderedInsert, abs_of_nonneg]
  refine ⟨⟨?_, ?_⟩, hcollide, ?_, ?_⟩
  · rw [horder]
    rfl
  · rw [horder]
    intro hs
    have := (List.pairwise_cons.mp hs).1 3 (List.mem_singleton.mpr rfl)
    norm_num at this
  · rw [hsnap]
    norm_num
  · intro q hq
    rw [hcollide] at hq
    rw [List.mem_singleton.mp hq]
    norm_num

/-- A successful `findFirst` over `range' s len` returns the least index in
range satisfying the predicate. -/
theorem findFirst_range'_some (P : ℕ → Prop) [DecidablePred P] :
    ∀ (len s k : ℕ), findFirst P (List.range' s len) = some k →
      s ≤ k ∧ k < s + len ∧ P k ∧ ∀ j, s ≤ j → j < k → ¬ P j := by
  intro len
  induction len with
  | zero =>
    intro s k h
    simp [List.range', findFirst] at h
  | succ n ih =>
    intro s k h
    by_cases hs : P s
    · rw [List.range'_succ, findFirst, if_pos hs] at h
      simp only [Option.some.injEq] at h
      subst h
      exact ⟨le_refl _, by omega, hs, fun j hj1 hj2 => absurd hj1 (by omega)⟩
    · rw [List.range'_succ, findFirst, if_neg hs] at h
      obtain ⟨h1, h2, h3, h4⟩ := ih (s + 1) k h
      refine ⟨by omega, by omega, h3, ?_⟩
      intro j hj1 hj2
      by_cases hjs : j = s
      · subst hjs
        exact hs
      · exact h4 j (by omega) hj2

/-- A failed `findFirst` over `range' s len` means no index in range
satisfies the predicate. -/
theorem findFirst_range'_none (P : ℕ → Prop) [DecidablePred P] :
    ∀ (len s : ℕ), findFirst P (List.range' s len) = none →
      ∀ j, s ≤ j → j < s + len → ¬ P j := by
  intro len
  induction len with
  | zero =>
    intro s _ j hj1 hj2
    omega
  | succ n ih =>
    intro s h j hj1 hj2
    by_cases hs : P s
    · rw [List.range'_succ, findFirst, if_pos hs] at h
      cases h
    · rw [List.range'_succ, findFirst, if_neg hs] at h
      by_cases hjs : j = s
      · subst hjs
        exact hs
      · exact ih (s + 1) h j (by omega) (by omega)

/-- C9 (amended): the re-zero step locates the least index whose sample
exceeds twice either threshold; when that index is positive, its
displacement is subtracted from the whole displacement series; when it is 0
— even though a sample exceeds the thresholds — or when no sample exceeds
them, no shift is applied. -/
theorem rezero_spec (dt ft : ℚ) (l : List Sample) :
    (∀ k, findFirst (loadingCond dt ft l) (List.range l.length) = some k →
      (loadingCond dt ft l k ∧ ∀ j < k, ¬ loadingCond dt ft l j) ∧
      (0 < k → rezeroSeries dt ft l =
        l.map (fun p => ⟨p.d - (l.getD k default).d, p.f⟩)) ∧
      (k = 0 → rezeroSeries dt ft l = l)) ∧
    (findFirst (loadingCond dt ft l) (List.range l.length) = none →
      rezeroSeries dt ft l = l) := by
  constructor
  · intro k hk
    have hk' : findFirst (loadingCond dt ft l) (List.range' 0 l.length) = some k := by
      rwa [← List.range_eq_range']
    have hchar := findFirst_range'_some _ l.length 0 k hk'
    refine ⟨⟨hchar.2.2.1, fun j hj => hchar.2.2.2 j (Nat.zero_le j) hj⟩, ?_, ?_⟩
    · intro hpos
      simp only [rezeroSeries, loadingStartIdx, hk]
      rw [if_pos hpos]
    · intro h0
      subst h0
      simp only [rezeroSeries, loadingStartIdx, hk]
      rw [if_neg (lt_irrefl 0)]
  · intro hnone
    simp only [rezeroSeries, loadingStartIdx, hnone]
    rw [if_neg (lt_irrefl 0)]

/-- C9 counterexample: on the deduplicated series `[(5, 1), (3, 1)]` (its
own preprocessing thresholds are `1/500` and `1/100`), the first sample
exceeding twice a threshold is the sample at index 0, whose displacement is
5 ≠ 0; the claim would shift the series by 5, but the code applies no shift
because `loading_start_idx == 0`. -/
theorem rezero_counterexample :
    dispThresholdOf [⟨5, 1⟩, ⟨3, 1⟩] = 1/500 ∧
    forceThresholdOf [⟨5, 1⟩, ⟨3, 1⟩] = 1/100 ∧
    dedupSeries [⟨5, 1⟩, ⟨3, 1⟩] = [⟨5, 1⟩, ⟨3, 1⟩] ∧
    findFirst (loadingCond (1/500) (1/100) [⟨5, 1⟩, ⟨3, 1⟩]) (List.range 2) = some 0 ∧
    preprocess_data [⟨5, 1⟩, ⟨3, 1⟩] = [⟨5, 1⟩, ⟨3, 1⟩] ∧
    ([⟨5, 1⟩, ⟨3, 1⟩] : List Sample).map
        (fun p => (⟨p.d - 5, p.f⟩ : Sample)) ≠ [⟨5, 1⟩, ⟨3, 1⟩] := by
  refine ⟨?_, ?_, ?_, ?_, ?_, ?_⟩
  · norm_num [dispThresholdOf, maxAbs, minAbs, npMax, npMin]
  · norm_num [forceThresholdOf, maxAbs, minAbs, npMax, npMin]
  · norm_num [dedupSeries, dedupIndices, dedupDict, dedupFold, dictInsert,
      dictFindSimilar, dictDelete, dictAssign, snapSeries, snapVal,
      dispThresholdOf, forceThresholdOf, maxAbs, minAbs,
      npMax, npMin, List.insertionSort, List.orderedInsert, abs_of_nonneg]
  · norm_num [findFirst, loadingCond, List.range, List.range.loop, abs_of_nonneg]
  · norm_num [preprocess_data, dedupSeries, dedupIndices, dedupDict, dedupFold,
      dictInsert, dictFindSimilar, dictDelete, dictAssign, snapSeries, snapVal, dispThresholdOf, forceThresholdOf,
      maxAbs, minAbs, npMax, npMin, rezeroSeries, loadingStartIdx, loadingCond,
      findFirst, List.insertionSort, List.orderedInsert, abs_of_nonneg]
  · intro h
    have := congrArg (fun t => (t.headD default).d) h
    norm_num at this

/-- Witness for C9 on `l = [(0,0), (5,1)]` with thresholds `dt = ft = 1`:
the first exceeding sample is at index 1, so the series is shifted by its
displacement. -/
theorem rezero_spec_witness :
    findFirst (loadingCond 1 1 [⟨0, 0⟩, ⟨5, 1⟩]) (List.range 2) = some 1 ∧
    loadingCond 1 1 [⟨0, 0⟩, ⟨5, 1⟩] 1 ∧
    (∀ j < 1, ¬ loadingCond 1 1 [⟨0, 0⟩, ⟨5, 1⟩] j) ∧
    rezeroSeries 1 1 [⟨0, 0⟩, ⟨5, 1⟩] =
      ([⟨0, 0⟩, ⟨5, 1⟩] : List Sample).map
        (fun p => ⟨p.d - (([⟨0, 0⟩, ⟨5, 1⟩] : List Sample).getD 1 default).d, p.f⟩) := by
  have hk : findFirst (loadingCond 1 1 [⟨0, 0⟩, ⟨5, 1⟩]) (List.range 2) = some 1 := by
    norm_num [findFirst, loadingCond, List.range, List.range.loop, abs_of_nonneg]
  have h := (rezero_spec 1 1 [⟨0, 0⟩, ⟨5, 1⟩]).1 1 hk
  exact ⟨hk, h.1.1, h.1.2, h.2.1 (by norm_num)⟩

/-- A scan over keys all farther than the tolerance finds nothing. -/
theorem dictFindSimilar_none (tol pd : ℚ) :
    ∀ dict : List (ℕ × Sample),
      (∀ e ∈ dict, ¬ |pd - e.2.d| ≤ tol) →
      dictFindSimilar tol pd dict = none := by
  intro dict
  induction dict with
  | nil =>
    intro _
    rfl
  | cons hd rest ih =>
    intro hno
    rw [dictFindSimilar, if_neg (hno hd (List.mem_cons_self hd rest))]
    exact ih (fun e he => hno e (List.mem_cons_of_mem hd he))

/-- An assignment under a key held by no entry appends at the end. -/
theorem dictAssign_no_key (i : ℕ) (p : Sample) :
    ∀ l : List (ℕ × Sample),
      (∀ e ∈ l, e.2.d ≠ p.d) →
      dictAssign i p l = l ++ [(i, p)] := by
  intro l
  induction l with
  | nil =>
    intro _
    rfl
  | cons hd rest ih =>
    intro hno
    rw [dictAssign, if_neg (hno hd (List.mem_cons_self hd rest)),
      ih (fun e he => hno e (List.mem_cons_of_mem hd he))]
    rfl

/-- When no stored key is within a (non-negative) tolerance, `dictInsert`
appends a fresh entry at the end. -/
theorem dictInsert_no_match (tol : ℚ) (i : ℕ) (p : Sample)
    (htol : 0 ≤ tol) :
    ∀ dict : List (ℕ × Sample),
      (∀ e ∈ dict, ¬ |p.d - e.2.d| ≤ tol) →
      dictInsert tol i p dict = dict ++ [(i, p)] := by
  intro dict hno
  rw [dictInsert, dictFindSimilar_none tol p.d dict hno]
  apply dictAssign_no_key
  intro e he hcontra
  apply hno e he
  rw [hcontra]
  simpa using htol

/-- When all samples are pairwise farther apart than the tolerance (and
clear of all stored keys), the dedup loop appends every sample with its
index: it is the identity up to enumeration. -/
theorem dedupFold_no_match (tol : ℚ) (htol : 0 ≤ tol) :
    ∀ (l : List Sample) (i : ℕ) (dict : List (ℕ × Sample)),
      (∀ e ∈ dict, ∀ p ∈ l, ¬ |p.d - e.2.d| ≤ tol) →
      List.Pairwise (fun a b => ¬ |b.d - a.d| ≤ tol) l →
      dedupFold tol i dict l = dict ++ List.enumFrom i l := by
  intro l
  induction l with
  | nil =>
    intro i dict _ _
    simp [dedupFold, List.enumFrom]
  | cons p l ih =>
    intro i dict hdict hpw
    obtain ⟨hp, hl⟩ := List.pairwise_cons.mp hpw
    have hstep : dedupFold tol i dict (p :: l) =
        dedupFold tol (i + 1) (dictInsert tol i p dict) l := rfl
    rw [hstep, dictInsert_no_match tol i p htol dict
      (fun e he => hdict e he p (List.mem_cons_self p l))]
    have hside : ∀ e ∈ dict ++ [(i, p)], ∀ q ∈ l, ¬ |q.d - e.2.d| ≤ tol := by
      intro e he q hq
      rcases List.mem_append.mp he with h | h
      · exact hdict e h q (List.mem_cons_of_mem p hq)
      · rw [List.mem_singleton.mp h]
        exact hp q hq
    rw [ih (i + 1) (dict ++ [(i, p)]) hside hl, List.append_assoc]
    rfl

/-- Reading a list at every index in order reproduces the list. -/
theorem range_map_getD (L : List Sample) :
    (List.range L.length).map (fun i => L.getD i default) = L := by
  induction L with
  | nil => simp
  | cons a L ih =>
    rw [List.length_cons, List.range_succ_eq_map, List.map_cons, List.getD_cons_zero,
      List.map_map]
    have hcong : ∀ i ∈ List.range L.length,
        ((fun i => (a :: L).getD i default) ∘ Nat.succ) i = L.getD i default := by
      intro i _
      rfl
    rw [List.map_congr_left hcong, ih]

/-- C7 (amended): preprocessing is idempotent on series that are already
clean with respect to their own thresholds: every value is 0 or at least its
snap threshold in magnitude, displacement values are pairwise more than
`0.5 * disp_threshold` apart, and `loading_start_idx` is 0 (the first sample
already exceeds twice a threshold, or none does).  In general preprocessing
is not idempotent — see `preprocess_not_idempotent`. -/
theorem preprocess_idempotent_on_clean (s : List Sample)
    (h1 : ∀ p ∈ s, (p.d = 0 ∨ dispThresholdOf s ≤ |p.d|) ∧
      (p.f = 0 ∨ forceThresholdOf s ≤ |p.f|))
    (h2 : List.Pairwise (fun a b => ¬ |b.d - a.d| ≤ dispThresholdOf s * (1/2)) s)
    (h3 : loadingStartIdx (dispThresholdOf s) (forceThresholdOf s) s = 0) :
    preprocess_data s = s := by
  have hsnap : snapSeries s = s := by
    unfold snapSeries
    have hcong : ∀ p ∈ s,
        (⟨snapVal (dispThresholdOf s) p.d, snapVal (forceThresholdOf s) p.f⟩ : Sample) = p := by
      intro p hp
      obtain ⟨hd, hf⟩ := h1 p hp
      have hd' : snapVal (dispThresholdOf s) p.d = p.d := by
        rcases hd with h | h
        · rw [h]
          simp [snapVal]
        · rw [snapVal, if_neg (not_lt.mpr h)]
      have hf' : snapVal (forceThresholdOf s) p.f = p.f := by
        rcases hf with h | h
        · rw [h]
          simp [snapVal]
        · rw [snapVal, if_neg (not_lt.mpr h)]
      rw [hd', hf']
    rw [List.map_congr_left hcong]
    simp
  have htol : (0:ℚ) ≤ dispThresholdOf s * (1/2) := by
    have h1 : (0:ℚ) < 1/1000 := by norm_num
    have h2 : (1:ℚ)/1000 ≤ dispThresholdOf s := le_max_left _ _
    nlinarith
  have hdict : dedupDict (dispThresholdOf s * (1/2)) s = List.enumFrom 0 s := by
    rw [dedupDict, dedupFold_no_match _ htol s 0 [] (by intro e he; cases he) h2]
    rfl
  have hidx : dedupIndices (dispThresholdOf s * (1/2)) s = List.range s.length := by
    rw [dedupIndices, hdict, List.enumFrom_map_fst, ← List.range_eq_range']
    exact List.Sorted.insertionSort_eq ((List.pairwise_lt_range _).imp le_of_lt)
  have hser : dedupSeries s = s := by
    rw [dedupSeries, hsnap, hidx, range_map_getD]
  rw [preprocess_data, hser, rezeroSeries]
  simp only [h3]
  rw [if_neg (lt_irrefl 0)]

/-- C7 counterexample: preprocessing is not idempotent.  On
`[(1, 10), (1.0008, 5), (1.0004, 20)]` the greedy dedup replaces the key `1`
by `1.0004` (larger `|force|`) but never compares `1.0004` with the other
surviving key `1.0008`; the two survivors are within tolerance of each
other, so a second pass merges them. -/
theorem preprocess_not_idempotent :
    preprocess_data (preprocess_data
        [⟨1, 10⟩, ⟨10008/10000, 5⟩, ⟨10004/10000, 20⟩]) ≠
      preprocess_data [⟨1, 10⟩, ⟨10008/10000, 5⟩, ⟨10004/10000, 20⟩] := by
  have h1 : preprocess_data [⟨1, 10⟩, ⟨10008/10000, 5⟩, ⟨10004/10000, 20⟩] =
      [⟨1251/1250, 5⟩, ⟨2501/2500, 20⟩] := by
    norm_num [preprocess_data, dedupSeries, dedupIndices, dedupDict, dedupFold,
      dictInsert, dictFindSimilar, dictDelete, dictAssign, snapSeries, snapVal, dispThresholdOf, forceThresholdOf,
      maxAbs, minAbs, npMax, npMin, rezeroSeries, loadingStartIdx, loadingCond,
      findFirst, List.insertionSort, List.orderedInsert, abs_of_nonneg,
      abs_of_nonpos]
  have h2 : preprocess_data [⟨1251/1250, 5⟩, ⟨2501/2500, 20⟩] =
      [⟨2501/2500, 20⟩] := by
    norm_num [preprocess_data, dedupSeries, dedupIndices, dedupDict, dedupFold,
      dictInsert, dictFindSimilar, dictDelete, dictAssign, snapSeries, snapVal, dispThresholdOf, forceThresholdOf,
      maxAbs, minAbs, npMax, npMin, rezeroSeries, loadingStartIdx, loadingCond,
      findFirst, List.insertionSort, List.orderedInsert, abs_of_nonneg,
      abs_of_nonpos]
  rw [h1, h2]
  intro h
  exact absurd (congrArg List.length h) (by norm_num)

/-- Witness for C7 on the already-clean series `[(5, 50), (3, 30)]`. -/
theorem preprocess_idempotent_on_clean_witness :
    (∀ p ∈ ([⟨5, 50⟩, ⟨3, 30⟩] : List Sample),
      (p.d = 0 ∨ dispThresholdOf [⟨5, 50⟩, ⟨3, 30⟩] ≤ |p.d|) ∧
      (p.f = 0 ∨ forceThresholdOf [⟨5, 50⟩, ⟨3, 30⟩] ≤ |p.f|)) ∧
    loadingStartIdx (dispThresholdOf [⟨5, 50⟩, ⟨3, 30⟩])
      (forceThresholdOf [⟨5, 50⟩, ⟨3, 30⟩]) [⟨5, 50⟩, ⟨3, 30⟩] = 0 ∧
    preprocess_data [⟨5, 50⟩, ⟨3, 30⟩] = [⟨5, 50⟩, ⟨3, 30⟩] := by
  have hdt : dispThresholdOf [⟨5, 50⟩, ⟨3, 30⟩] = 1/500 := by
    norm_num [dispThresholdOf, maxAbs, minAbs, npMax, npMin]
  have hft : forceThresholdOf [⟨5, 50⟩, ⟨3, 30⟩] = 1/50 := by
    norm_num [forceThresholdOf, maxAbs, minAbs, npMax, npMin]
  have h1 : ∀ p ∈ ([⟨5, 50⟩, ⟨3, 30⟩] : List Sample),
      (p.d = 0 ∨ dispThresholdOf [⟨5, 50⟩, ⟨3, 30⟩] ≤ |p.d|) ∧
      (p.f = 0 ∨ forceThresholdOf [⟨5, 50⟩, ⟨3, 30⟩] ≤ |p.f|) := by
    intro p hp
    rw [hdt, hft]
    fin_cases hp <;> norm_num
  have h2 : List.Pairwise
      (fun a b : Sample => ¬ |b.d - a.d| ≤ dispThresholdOf [⟨5, 50⟩, ⟨3, 30⟩] * (1/2))
      [⟨5, 50⟩, ⟨3, 30⟩] := by
    rw [hdt]
    norm_num [List.pairwise_cons, abs_of_nonpos]
  have h3 : loadingStartIdx (dispThresholdOf [⟨5, 50⟩, ⟨3, 30⟩])
      (forceThresholdOf [⟨5, 50⟩, ⟨3, 30⟩]) [⟨5, 50⟩, ⟨3, 30⟩] = 0 := by
    rw [hdt, hft]
    norm_num [loadingStartIdx, findFirst, loadingCond, List.range, List.range.loop,
      abs_of_nonneg]
  exact ⟨h1, h3, preprocess_idempotent_on_clean _ h1 h2 h3⟩

/-- Membership in an ordered insertion. -/
theorem insSortedNat_mem (i : ℕ) :
    ∀ (l : List ℕ) (j : ℕ), j ∈ insSortedNat i l ↔ j = i ∨ j ∈ l := by
  intro l
  induction l with
  | nil =>
    intro j
    simp [insSortedNat]
  | cons k rest ih =>
    intro j
    simp only [insSortedNat]
    split_ifs with h1 h2
    · simp [or_comm, List.mem_cons]
    · subst h2
      simp [List.mem_cons]
    · simp only [List.mem_cons, ih]
      tauto

/-- Ordered insertion preserves strictly increasing order. -/
theorem insSortedNat_pairwise (i : ℕ) :
    ∀ l : List ℕ, List.Pairwise (· < ·) l →
      List.Pairwise (· < ·) (insSortedNat i l) := by
  intro l
  induction l with
  | nil =>
    intro _
    simp [insSortedNat]
  | cons k rest ih =>
    intro hpw
    obtain ⟨hk, hrest⟩ := List.pairwise_cons.mp hpw
    simp only [insSortedNat]
    split_ifs with h1 h2
    · rw [List.pairwise_cons]
      refine ⟨?_, hpw⟩
      intro b hb
      rcases List.mem_cons.mp hb with h | h
      · omega
      · have := hk b h
        omega
    · exact hpw
    · rw [List.pairwise_cons]
      refine ⟨?_, ih hrest⟩
      intro b hb
      rcases (insSortedNat_mem i rest b).mp hb with h | h
      · omega
      · exact hk b h

/-- Membership after folding ordered insertions. -/
theorem foldl_insSortedNat_mem :
    ∀ (xs : List ℕ) (l : List ℕ) (j : ℕ),
      j ∈ xs.foldl (fun acc i => insSortedNat i acc) l ↔ j ∈ xs ∨ j ∈ l := by
  intro xs
  induction xs with
  | nil =>
    intro l j
    simp
  | cons x xs ih =>
    intro l j
    rw [List.foldl_cons, ih, insSortedNat_mem, List.mem_cons]
    tauto

/-- Sortedness after folding ordered insertions. -/
theorem foldl_insSortedNat_pairwise :
    ∀ (xs : List ℕ) (l : List ℕ), List.Pairwise (· < ·) l →
      List.Pairwise (· < ·) (xs.foldl (fun acc i => insSortedNat i acc) l) := by
  intro xs
  induction xs with
  | nil =>
    intro l h
    exact h
  | cons x xs ih =>
    intro l h
    exact ih _ (insSortedNat_pairwise x l h)

/-- Membership in an `addRange`: the half-open interval `[a, b)` or the
previous content. -/
theorem addRange_mem (a b : ℕ) (l : List ℕ) (j : ℕ) :
    j ∈ addRange a b l ↔ (a ≤ j ∧ j < b) ∨ j ∈ l := by
  rw [addRange, foldl_insSortedNat_mem, List.mem_range'_1]
  constructor
  · rintro (⟨h1, h2⟩ | h)
    · exact Or.inl ⟨h1, by omega⟩
    · exact Or.inr h
  · rintro (⟨h1, h2⟩ | h)
    · exact Or.inl ⟨h1, by omega⟩
    · exact Or.inr h

/-- `addRange` preserves strictly increasing order. -/
theorem addRange_pairwise (a b : ℕ) (l : List ℕ) (h : List.Pairwise (· < ·) l) :
    List.Pairwise (· < ·) (addRange a b l) :=
  foldl_insSortedNat_pairwise _ l h

/-- C8 (amended): with `filter_first_loop` set, the working series is the
union, in ascending index order, of the per-group windows
`[max(0, first_peak − 50), min(len, first_peak + 50))` — half-open, i.e. up
to 50 samples before and 49 samples after each group's first peak — where
the groups collect the `|displacement|` local maxima greedily within 8% of
their seed's value. -/
theorem filter_first_loops_spec (d f : List ℚ) :
    (∀ j, j ∈ ffKeep d ↔ ∃ g ∈ ffGroups d,
      listMinNat g - 50 ≤ j ∧ j < min d.length (listMinNat g + 50)) ∧
    List.Pairwise (· < ·) (ffKeep d) ∧
    (absPeaksIdx d ≠ [] → ffKeep d ≠ [] →
      filter_first_loops d f =
        ((ffKeep d).map (fun i => d.getD i 0), (ffKeep d).map (fun i => f.getD i 0))) := by
  have hmem : ∀ (gs : List (List ℕ)) (l : List ℕ) (j : ℕ),
      j ∈ gs.foldl (fun acc g =>
        addRange (listMinNat g - 50) (min d.length (listMinNat g + 50)) acc) l ↔
      (∃ g ∈ gs, listMinNat g - 50 ≤ j ∧ j < min d.length (listMinNat g + 50)) ∨ j ∈ l := by
    intro gs
    induction gs with
    | nil =>
      intro l j
      simp
    | cons g gs ih =>
      intro l j
      rw [List.foldl_cons, ih, addRange_mem]
      simp only [List.mem_cons]
      constructor
      · rintro (⟨g', hg', h⟩ | (h | h))
        · exact Or.inl ⟨g', Or.inr hg', h⟩
        · exact Or.inl ⟨g, Or.inl rfl, h⟩
        · exact Or.inr h
      · rintro (⟨g', hg' | hg', h⟩ | h)
        · subst hg'
          exact Or.inr (Or.inl h)
        · exact Or.inl ⟨g', hg', h⟩
        · exact Or.inr (Or.inr h)
  have hpw : ∀ (gs : List (List ℕ)) (l : List ℕ), List.Pairwise (· < ·) l →
      List.Pairwise (· < ·) (gs.foldl (fun acc g =>
        addRange (listMinNat g - 50) (min d.length (listMinNat g + 50)) acc) l) := by
    intro gs
    induction gs with
    | nil =>
      intro l h
      exact h
    | cons g gs ih =>
      intro l h
      exact ih _ (addRange_pairwise _ _ l h)
  refine ⟨?_, ?_, ?_⟩
  · intro j
    rw [ffKeep, hmem]
    simp
  · rw [ffKeep]
    exact hpw _ [] List.Pairwise.nil
  · intro h1 h2
    rw [filter_first_loops, if_neg h1, if_neg h2]

/-- Witness for C8 on `d = f = [0, 5, 1]` (one peak at index 1, one group,
window `[0, 3)`). -/
theorem filter_first_loops_spec_witness :
    absPeaksIdx [0, 5, 1] ≠ [] ∧
    ffKeep [0, 5, 1] ≠ [] ∧
    (0 ∈ ffKeep [0, 5, 1] ↔ ∃ g ∈ ffGroups [0, 5, 1],
      listMinNat g - 50 ≤ 0 ∧ 0 < min ([(0:ℚ), 5, 1].length) (listMinNat g + 50)) ∧
    List.Pairwise (· < ·) (ffKeep [0, 5, 1]) ∧
    filter_first_loops [0, 5, 1] [0, 5, 1] =
      ((ffKeep [0, 5, 1]).map (fun i => ([(0:ℚ), 5, 1]).getD i 0),
       (ffKeep [0, 5, 1]).map (fun i => ([(0:ℚ), 5, 1]).getD i 0)) := by
  have hp : absPeaksIdx [0, 5, 1] = [1] := by
    norm_num [absPeaksIdx, filterIdx, List.range', abs_of_nonneg]
  have hg : ffGroups [0, 5, 1] = [[1]] := by
    rw [ffGroups, hp]
    norm_num [buildGroups, collectGroup, List.enum, List.enumFrom]
  have hk : ffKeep [0, 5, 1] = [0, 1, 2] := by
    rw [ffKeep, hg]
    decide
  have h := filter_first_loops_spec [0, 5, 1] [0, 5, 1]
  refine ⟨by rw [hp]; simp, by rw [hk]; simp, h.1 0, h.2.1, ?_⟩
  exact h.2.2 (by rw [hp]; simp) (by rw [hk]; simp)

/-- C8 counterexample: for the series `ffCexD` (peak at index 1,
length 52), the claimed inclusive window `[1 − 50, 1 + 50]` clipped to the
series bounds contains index 51 (= `first_peak + 50 < len`), so the claim
would keep all 52 samples; the code keeps `range(max(0, 1-50), min(52, 51))
= [0, 51)` — index 51 is dropped and the output has 51 samples. -/
theorem filter_window_counterexample :
    absPeaksIdx ffCexD = [1] ∧
    ffGroups ffCexD = [[1]] ∧
    ffKeep ffCexD = List.range 51 ∧
    ffCexD.length = 52 ∧
    51 ∉ ffKeep ffCexD ∧
    listMinNat [1] - 50 ≤ 51 ∧ 51 ≤ listMinNat [1] + 50 ∧ 51 < ffCexD.length ∧
    (filter_first_loops ffCexD ffCexD).1.length = 51 := by
  have hp : absPeaksIdx ffCexD = [1] := by
    norm_num [ffCexD, absPeaksIdx, filterIdx, List.range', abs_of_nonneg]
  have hg : ffGroups ffCexD = [[1]] := by
    rw [ffGroups, hp]
    norm_num [ffCexD, buildGroups, collectGroup, List.enum, List.enumFrom,
      abs_of_nonneg]
  have hk : ffKeep ffCexD = List.range 51 := by
    rw [ffKeep, hg]
    decide
  have hlen : ffCexD.length = 52 := by decide
  have hne1 : absPeaksIdx ffCexD ≠ [] := by
    rw [hp]
    simp
  have hne2 : ffKeep ffCexD ≠ [] := by
    rw [hk]
    decide
  have hout : filter_first_loops ffCexD ffCexD =
      ((ffKeep ffCexD).map (fun i => ffCexD.getD i 0),
       (ffKeep ffCexD).map (fun i => ffCexD.getD i 0)) := by
    rw [filter_first_loops, if_neg hne1, if_neg hne2]
  refine ⟨hp, hg, hk, hlen, ?_, by decide, by decide, by rw [hlen]; decide, ?_⟩
  · rw [hk]
    decide
  · rw [hout, hk]
    simp

/-- Witness for C6 on `x = [1,2,3,4]`, `y = [5,6,7,8]`, `num_points = 5`,
with the identity-on-grid evaluation standing in for the interpolant. -/
theorem interpolate_smooth_spec_witness :
    4 ≤ (dedupByX (([1, 2, 3, 4] : List ℚ).zip ([5, 6, 7, 8] : List ℚ))).length ∧
    (interpolate_smooth (fun _ _ q => q) 5 [1, 2, 3, 4] [5, 6, 7, 8]).1.length = 5 ∧
    (interpolate_smooth (fun _ _ q => q) 5 [1, 2, 3, 4] [5, 6, 7, 8]).2.length = 5 ∧
    (interpolate_smooth (fun _ _ q => q) 5 [1, 2, 3, 4] [5, 6, 7, 8]).1 =
      linspace (npMin ((dedupByX (([1, 2, 3, 4] : List ℚ).zip ([5, 6, 7, 8] : List ℚ))).map
          Prod.fst))
        (npMax ((dedupByX (([1, 2, 3, 4] : List ℚ).zip ([5, 6, 7, 8] : List ℚ))).map
          Prod.fst)) 5 := by
  have h4 : 4 ≤ (dedupByX (([1, 2, 3, 4] : List ℚ).zip ([5, 6, 7, 8] : List ℚ))).length := by
    norm_num [dedupByX, dedupByXGo, List.zip, List.zipWith]
  exact ⟨h4, (interpolate_smooth_spec (fun _ _ q => q) 5 [1, 2, 3, 4] [5, 6, 7, 8]
    (fun _ _ _ => rfl)).2 h4⟩

end HysAnalysis
